import Mathlib

/-!
# wal-g envelope encryption: header codec, caching enveloper, crypter

A shallow embedding of

* `internal/crypto/envelope/enveloper/yckms/enveloper.go`
  (`serializeEncryptedKey`, `readEncryptedKey`),
* `internal/crypto/envelope/enveloper/cached/enveloper.go`
  (`Item.isFresh`, `createKey`, `Enveloper.DecryptKey`, `EnveloperWithCache`),
* `internal/crypto/envelope/openpgp/crypter.go`
  (`Crypter.setupEncryptedKey`, `Crypter.Encrypt`, `Crypter.Decrypt`).

Conventions.  A Go `[]byte` is a `List Byte` with `Byte = Fin 256`.  A Go
`error` is a value of `Error`, `nil` being `none`/`Except.ok`.  Stateful
collaborators (`io.Reader`, `io.Writer`, the KMS client, the clock) are
passed explicitly: a function takes the state before and returns the state
after.  Machine integers are naturals with an explicit `% 2 ^ 32`.

Outside the three files: `bytes.Reader`, `bytes.Buffer`, `bufio.Reader`,
`bufio.Writer`, `io.ReadAll` and `encoding/base64` follow the Go standard
library; `sha1.Sum`, the KMS call, `os.ReadFile` and the OpenPGP engine are
parameters; the writer of package `ioextensions` follows the design
document.
-/

namespace WalG

set_option autoImplicit false

/-! ## Bytes and errors -/

/-- One octet. -/
abbrev Byte := Fin 256

/-- Go `error` values that the embedded code creates or passes on. -/
inductive Error where
  /-- Go `io.EOF`. -/
  | EOF
  /-- Go `errors.New("envelope yc kms: invalid encrypted header format")`. -/
  | invalidFormat
  /-- Go `errors.New("envelope yc kms: scheme version is not supported")`. -/
  | versionNotSupported
  /-- Go `errors.New("opengpg: invalid size of the encrypted key")`. -/
  | invalidSize
  /-- Go `errors.Wrapf(cause, msg)`. -/
  | wrapf (cause : Error) (msg : String)
  /-- Any other error of a collaborator (KMS, file system, base64, reader). -/
  | other (msg : String)
  deriving DecidableEq, Repr

deriving instance DecidableEq for Except

/-- Go `[]byte(s)`: the UTF-8 encoding of a string. -/
def stringBytes (s : String) : List Byte :=
  s.toList.flatMap (fun c => (String.utf8EncodeChar c).map (fun b => Fin.ofNat b.toNat))

/-- Go `make([]byte, n)`: `n` zero bytes. -/
def zeros (n : Nat) : List Byte := List.replicate n 0

/-! ## `encoding/binary.LittleEndian` -/

/-- Go `binary.LittleEndian.PutUint32(b, v)` on a 4-byte `b`: the resulting
contents of `b`.  `v` is a `uint32`, given as a natural below `2 ^ 32`. -/
def PutUint32 (v : Nat) : List Byte :=
  [Fin.ofNat v, Fin.ofNat (v / 2 ^ 8), Fin.ofNat (v / 2 ^ 16), Fin.ofNat (v / 2 ^ 24)]

/-- Go `binary.LittleEndian.Uint32(b)`:
`uint32(b[0]) | uint32(b[1])<<8 | uint32(b[2])<<16 | uint32(b[3])<<24`. -/
def Uint32 (b : List Byte) : Nat :=
  (b.getD 0 0).val + (b.getD 1 0).val * 2 ^ 8 + (b.getD 2 0).val * 2 ^ 16
    + (b.getD 3 0).val * 2 ^ 24

/-- Go conversion `uint32(n)` of a non-negative `int`. -/
def toUint32 (n : Nat) : Nat := n % 2 ^ 32

/-! ## `io.Reader` -/

/-- What one call `r.Read(p)` yields: the `n` bytes stored in `p[0:n]`
(`data`, so `n = data.length`), the returned `err`, and the reader after. -/
structure ReadResult (σ : Type) where
  data : List Byte
  err : Option Error
  next : σ

/-- An `io.Reader` whose internal state has type `σ`: `Read s n` is the call
`r.Read(p)` with `len(p) = n` made in state `s`. -/
structure Reader (σ : Type) where
  Read : σ → Nat → ReadResult σ

/-- Contents of a buffer `p := make([]byte, n)` after `r.Read(p)` stored
`data` in `p[0:len(data)]`: the bytes read, then the untouched zeros. -/
def fillBuf (n : Nat) (data : List Byte) : List Byte :=
  data.take n ++ zeros (n - data.length)

/-- Go `bytes.Reader` (also the behaviour of any in-memory stream that hands
over everything asked for): the state is the unread rest.  `Read` at the end
returns `0, io.EOF`, otherwise it copies `min(len(p), rest)` bytes. -/
def bytesReader : Reader (List Byte) where
  Read := fun s n =>
    if s.length = 0 then { data := [], err := some Error.EOF, next := s }
    else { data := s.take n, err := none, next := s.drop n }

/-! ## yckms: header codec -/

namespace yckms

/-- Go `magic = "envelope-yc-kms"`. -/
def magicString : String := "envelope-yc-kms"

/-- Go `[]byte(magic)`. -/
def magic : List Byte := stringBytes magicString

/-- Go `schemeVersion byte = 1`. -/
def schemeVersion : Byte := 1

/-- Go `serializeEncryptedKey`: magic, scheme version, `uint32` length of the
key in little endian, the key. -/
def serializeEncryptedKey (encryptedKey : List Byte) : List Byte :=
  let encryptedKeyLen := PutUint32 (toUint32 encryptedKey.length)
  let result := magic ++ [schemeVersion]
  let result := result ++ encryptedKeyLen
  result ++ encryptedKey

/-- Go `readEncryptedKey`: three `Read` calls, each into a fresh zeroed buffer,
each checked only for its error (the byte count is dropped). -/
def readEncryptedKey {σ : Type} (r : Reader σ) (s : σ) : Except Error (List Byte) × σ :=
  let r1 := r.Read s (magic.length + 1)
  let magicSchemeBytes := fillBuf (magic.length + 1) r1.data
  match r1.err with
  | some err => (Except.error err, r1.next)
  | none =>
    if magicSchemeBytes.take magic.length ≠ magic then
      (Except.error Error.invalidFormat, r1.next)
    else if schemeVersion ≠ magicSchemeBytes.getD magic.length 0 then
      (Except.error Error.versionNotSupported, r1.next)
    else
      let r2 := r.Read r1.next 4
      let encryptedKeyLenBytes := fillBuf 4 r2.data
      match r2.err with
      | some err => (Except.error err, r2.next)
      | none =>
        let encryptedKeyLen := Uint32 encryptedKeyLenBytes
        let r3 := r.Read r2.next encryptedKeyLen
        let encryptedKey := fillBuf encryptedKeyLen r3.data
        match r3.err with
        | some err => (Except.error err, r3.next)
        | none => (Except.ok encryptedKey, r3.next)

end yckms

/-! ## `io.Writer` and `bufio` -/

/-- What one call `w.Write(p)` yields.  `fail = none` is the return
`len(p), nil`; `fail = some (n, err)` is the return `n, err` with a non-nil
`err`.  The `io.Writer` contract ("Write must return a non-nil error if it
returns `n < len(p)`") leaves no other case. -/
structure WriteResult (τ : Type) where
  fail : Option (Nat × Error)
  next : τ

/-- An `io.Writer` whose internal state has type `τ`.  `asBufio` is the
dynamic type of the value, as the assertion `w.(*bufio.Writer)` sees it:
`some (n, flush)` for a `*bufio.Writer` whose buffer has `n` bytes, `flush`
being its `Flush` method, and `none` for every other writer. -/
structure Writer (τ : Type) where
  Write : τ → List Byte → WriteResult τ
  asBufio : Option (Nat × (τ → Option Error × τ))

/-- Go `bytes.Buffer` as a sink: the state is everything written so far;
`Write` appends and never fails. -/
def bytesBuffer : Writer (List Byte) where
  Write := fun s p => { fail := none, next := s ++ p }
  asBufio := none

namespace bufio

/-- State of a `bufio.Reader`: `buf` is the unread part `b.buf[b.r:b.w]`,
`err` the pending `b.err`, `rd` the reader underneath. -/
structure ReaderState (σ : Type) where
  buf : List Byte
  err : Option Error
  rd : σ

/-- Go `bufio.NewReaderSize(rd, size)` for an `rd` that is not itself a
`*bufio.Reader` of at least that size. -/
def NewReaderSize {σ : Type} (rd : σ) : ReaderState σ :=
  { buf := [], err := none, rd := rd }

/-- Go `(*bufio.Reader).Read` over the reader `r`, with a buffer of `size`
bytes: an empty request answers from the pending error; with an empty
buffer it reads once from underneath (directly into `p` when `len(p)` is at
least `size`, else into the buffer); then it copies what it has, at most
`len(p)` bytes, and does not read again to fill `p`. -/
def Reader {σ : Type} (r : WalG.Reader σ) (size : Nat) : WalG.Reader (ReaderState σ) where
  Read := fun b n =>
    if n = 0 then
      if b.buf.length > 0 then { data := [], err := none, next := b }
      else { data := [], err := b.err, next := { b with err := none } }
    else if b.buf.length = 0 then
      match b.err with
      | some e => { data := [], err := some e, next := { b with err := none } }
      | none =>
        if n ≥ size then
          let u := r.Read b.rd n
          { data := u.data.take n, err := u.err, next := { buf := [], err := none, rd := u.next } }
        else
          let u := r.Read b.rd size
          let got := u.data.take size
          if got.length = 0 then
            { data := [], err := u.err, next := { buf := [], err := none, rd := u.next } }
          else
            { data := got.take n, err := none,
              next := { buf := got.drop n, err := u.err, rd := u.next } }
    else
      { data := b.buf.take n, err := none, next := { b with buf := b.buf.drop n } }

/-- State of a `bufio.Writer`: `buf` is the pending part `b.buf[0:b.n]`,
`err` the sticky `b.err`, `wr` the writer underneath. -/
structure WriterState (τ : Type) where
  buf : List Byte
  err : Option Error
  wr : τ

/-- Go `(*bufio.Writer).Flush`. -/
def Flush {τ : Type} (w : WalG.Writer τ) (b : WriterState τ) : Option Error × WriterState τ :=
  match b.err with
  | some e => (some e, b)
  | none =>
    if b.buf.length = 0 then (none, b)
    else
      let u := w.Write b.wr b.buf
      match u.fail with
      | some (n, e) => (some e, { buf := b.buf.drop n, err := some e, wr := u.next })
      | none => (none, { buf := [], err := none, wr := u.next })

/-- Go `(*bufio.Writer).Write` over the writer `w`, with a buffer of `size`
bytes.  While `p` does not fit the free space: an empty buffer passes `p`
straight down, a non-empty one is topped up and flushed.  What is left of
`p` is then copied into the buffer.  With a writer that keeps the
`io.Writer` contract the loop body runs at most twice. -/
def Writer {τ : Type} (w : WalG.Writer τ) (size : Nat) : WalG.Writer (WriterState τ) where
  Write := fun b p =>
    match b.err with
    | some e => { fail := some (0, e), next := b }
    | none =>
      if p.length ≤ size - b.buf.length then
        { fail := none, next := { b with buf := b.buf ++ p } }
      else if b.buf.length = 0 then
        let u := w.Write b.wr p
        match u.fail with
        | some (n, e) => { fail := some (n, e), next := { buf := [], err := some e, wr := u.next } }
        | none => { fail := none, next := { buf := [], err := none, wr := u.next } }
      else
        let n := size - b.buf.length
        let f := Flush w { b with buf := b.buf ++ p.take n }
        match f.1 with
        | some e => { fail := some (n, e), next := f.2 }
        | none =>
          let rest := p.drop n
          if rest.length ≤ size then
            { fail := none, next := { f.2 with buf := rest } }
          else
            let u := w.Write f.2.wr rest
            match u.fail with
            | some (m, e) =>
              { fail := some (n + m, e), next := { buf := [], err := some e, wr := u.next } }
            | none => { fail := none, next := { buf := [], err := none, wr := u.next } }
  asBufio := some (size, Flush w)

/-- The `*bufio.Writer` that `bufio.NewWriterSize(w, size)` returns: a new
one over `w`, or `w` itself. -/
inductive Buffered (τ : Type) where
  /-- A new `bufio.Writer` with the writer `w` underneath. -/
  | fresh (b : WriterState τ)
  /-- The argument `w`, which is a `*bufio.Writer`, in its state `s`. -/
  | same (s : τ)

/-- Go `bufio.NewWriterSize(w, size)`, for the writer `w` in state `wr`: when
`w` is a `*bufio.Writer` whose buffer has at least `size` bytes it is
returned as it is; any other writer gets a new, empty buffer. -/
def NewWriterSize {τ : Type} (w : WalG.Writer τ) (wr : τ) (size : Nat) : Buffered τ :=
  match w.asBufio with
  | some (n, _) =>
    if n ≥ size then Buffered.same wr
    else Buffered.fresh { buf := [], err := none, wr := wr }
  | none => Buffered.fresh { buf := [], err := none, wr := wr }

/-- The state of the caller's writer `w` behind the writer that
`NewWriterSize` returned. -/
def Buffered.underlying {τ : Type} : Buffered τ → τ
  | Buffered.fresh b => b.wr
  | Buffered.same s => s

/-- The `Flush` method of the writer that `NewWriterSize(w, size)` returned:
that of the new `bufio.Writer`, or that of `w` itself. -/
def Buffered.Flush {τ : Type} (w : WalG.Writer τ) : Buffered τ → Option Error × Buffered τ
  | Buffered.fresh b => ((bufio.Flush w b).1, Buffered.fresh (bufio.Flush w b).2)
  | Buffered.same s =>
    match w.asBufio with
    | some (_, flush) => ((flush s).1, Buffered.same (flush s).2)
    | none => (none, Buffered.same s)

/-- The writer that `NewWriterSize(w, size)` returned, as an `io.Writer`:
`Write` is that of the new `bufio.Writer` with a buffer of `size` bytes, or
that of `w` itself. -/
def Buffered.Writer {τ : Type} (w : WalG.Writer τ) (size : Nat) : WalG.Writer (Buffered τ) where
  Write := fun b p =>
    match b with
    | Buffered.fresh b =>
      { fail := ((bufio.Writer w size).Write b p).fail,
        next := Buffered.fresh ((bufio.Writer w size).Write b p).next }
    | Buffered.same s =>
      { fail := (w.Write s p).fail, next := Buffered.same (w.Write s p).next }
  asBufio :=
    match w.asBufio with
    | some (n, _) => if n ≥ size then some (n, Buffered.Flush w) else some (size, Buffered.Flush w)
    | none => some (size, Buffered.Flush w)

end bufio

/-! ## `envelope.Enveloper` -/

/-- The interface `envelope.Enveloper`, for an implementation whose mutable
state (KMS session, cache) has type `κ`.  `DecryptKey` may change that state
and may fail; the other three methods are pure in both implementations. -/
structure EnveloperI (κ : Type) where
  Name : String
  ReadEncryptedKey : {σ : Type} → Reader σ → σ → Except Error (List Byte) × σ
  DecryptKey : κ → List Byte → Except Error (List Byte) × κ
  SerializeEncryptedKey : List Byte → List Byte

namespace yckms

/-- The `yckms` enveloper.  `kmsDecrypt` stands for the remote call
`sdk.KMSCrypto().SymmetricCrypto().Decrypt(ctx, {KeyId, Ciphertext})` and
its `rsp.Plaintext`. -/
def Enveloper {κ : Type} (keyID : String)
    (kmsDecrypt : κ → String → List Byte → Except Error (List Byte) × κ) : EnveloperI κ where
  Name := "yckms"
  ReadEncryptedKey := fun r s => readEncryptedKey r s
  DecryptKey := fun k encryptedKey =>
    match kmsDecrypt k keyID encryptedKey with
    | (Except.error err, k1) => (Except.error err, k1)
    | (Except.ok plaintext, k1) => (Except.ok plaintext, k1)
  SerializeEncryptedKey := fun encryptedKey => serializeEncryptedKey encryptedKey

end yckms

/-! ## `time` -/

/-- A `time.Time` instant: nanoseconds from the zero `Time`
(January 1, year 1, 00:00:00 UTC). -/
abbrev Time := Int

/-- A `time.Duration`: nanoseconds. -/
abbrev Duration := Int

namespace time

/-- Go `t.IsZero()`. -/
def IsZero (t : Time) : Bool := decide (t = 0)

/-- Go `t.After(u)`. -/
def After (t u : Time) : Bool := decide (u < t)

/-- Go `t.Add(d)`. -/
def Add (t : Time) (d : Duration) : Time := t + d

/-- The zero value `var t time.Time`. -/
def zero : Time := 0

end time

/-! ## cached: the caching enveloper -/

namespace cached

/-- Go `type Item struct { Object []byte; ExpiredAt time.Time }`. -/
structure Item where
  Object : List Byte
  ExpiredAt : Time
  deriving DecidableEq, Repr

/-- Go `item.isFresh()`, with `now` the value of `time.Now()`. -/
def Item.isFresh (item : Item) (now : Time) : Bool :=
  time.IsZero item.ExpiredAt || time.After item.ExpiredAt now

/-- One lower-case hexadecimal digit. -/
def hexDigit (n : Nat) : Char :=
  if n < 10 then Char.ofNat (48 + n) else Char.ofNat (87 + n)

/-- Go `fmt.Sprintf("%x", b)` for a byte array: two hex digits per byte. -/
def sprintfHex (b : List Byte) : String :=
  String.mk (b.flatMap fun x => [hexDigit (x.val / 16), hexDigit (x.val % 16)])

/-- Go `createKey(s) = fmt.Sprintf("%x", sha1.Sum(s))`; the digest function
`sha1.Sum` of `crypto/sha1` is a parameter. -/
def createKey (sha1Sum : List Byte → List Byte) (s : List Byte) : String :=
  sprintfHex (sha1Sum s)

/-- Go `type Enveloper struct { wrapped; locker; items; expiration }`.
`items` is the Go map, `wrappedState` the state behind `wrapped`. -/
structure Enveloper (κ : Type) where
  wrapped : EnveloperI κ
  wrappedState : κ
  items : String → Option Item
  expiration : Duration

/-- Go map assignment `m[key] = item`. -/
def mapSet (m : String → Option Item) (key : String) (item : Item) : String → Option Item :=
  fun k => if k = key then some item else m k

/-- Result of one `DecryptKey` call on the caching enveloper: the returned
`([]byte, error)`, the enveloper afterwards, and the arguments of the calls
it made to `wrapped.DecryptKey`, in order. -/
structure DecryptKeyResult (κ : Type) where
  key : Except Error (List Byte)
  enveloper : Enveloper κ
  calls : List (List Byte)

/-- Go `(*Enveloper).DecryptKey`.  `tCheck` is the value of `time.Now()` read
inside `isFresh`, `tStore` the value read when the entry is stored. -/
def Enveloper.DecryptKey {κ : Type} (sha1Sum : List Byte → List Byte)
    (enveloper : Enveloper κ) (tCheck tStore : Time) (encryptedKey : List Byte) :
    DecryptKeyResult κ :=
  let key := createKey sha1Sum encryptedKey
  let item := (enveloper.items key).getD { Object := [], ExpiredAt := time.zero }
  let exists_ := (enveloper.items key).isSome
  if exists_ && item.isFresh tCheck then
    { key := Except.ok item.Object, enveloper := enveloper, calls := [] }
  else
    let r := enveloper.wrapped.DecryptKey enveloper.wrappedState encryptedKey
    match r.1 with
    | Except.error err =>
      if exists_ then
        { key := Except.ok item.Object,
          enveloper := { enveloper with wrappedState := r.2 }, calls := [encryptedKey] }
      else
        { key := Except.error err,
          enveloper := { enveloper with wrappedState := r.2 }, calls := [encryptedKey] }
    | Except.ok decryptedKey =>
      let expiredAt : Time :=
        if enveloper.expiration > 0 then time.Add tStore enveloper.expiration else time.zero
      { key := Except.ok decryptedKey,
        enveloper := { enveloper with
          wrappedState := r.2
          items := mapSet enveloper.items key { Object := decryptedKey, ExpiredAt := expiredAt } },
        calls := [encryptedKey] }

/-- One later `DecryptKey` call in a sequential history: what happened to the
state behind `wrapped` since the previous call (`drift`), the two clock
readings, and the argument. -/
structure Call (κ : Type) where
  drift : κ → κ
  tCheck : Time
  tStore : Time
  encryptedKey : List Byte

/-- The enveloper after a sequence of `DecryptKey` calls, one after another. -/
def Enveloper.DecryptKeys {κ : Type} (sha1Sum : List Byte → List Byte) :
    Enveloper κ → List (Call κ) → Enveloper κ
  | enveloper, [] => enveloper
  | enveloper, c :: cs =>
    Enveloper.DecryptKeys sha1Sum
      (Enveloper.DecryptKey sha1Sum { enveloper with wrappedState := c.drift enveloper.wrappedState }
        c.tCheck c.tStore c.encryptedKey).enveloper cs

/-- Go `(*Enveloper).Name`. -/
def Enveloper.Name {κ : Type} (enveloper : Enveloper κ) : String :=
  enveloper.wrapped.Name

/-- Go `(*Enveloper).ReadEncryptedKey`. -/
def Enveloper.ReadEncryptedKey {κ σ : Type} (enveloper : Enveloper κ) (r : Reader σ) (s : σ) :
    Except Error (List Byte) × σ :=
  enveloper.wrapped.ReadEncryptedKey r s

/-- Go `(*Enveloper).SerializeEncryptedKey`. -/
def Enveloper.SerializeEncryptedKey {κ : Type} (enveloper : Enveloper κ)
    (encryptedKey : List Byte) : List Byte :=
  enveloper.wrapped.SerializeEncryptedKey encryptedKey

/-- Go `EnveloperWithCache(enveloper, expiration)`: an empty map. -/
def EnveloperWithCache {κ : Type} (enveloper : EnveloperI κ) (state : κ)
    (expiration : Duration) : Enveloper κ :=
  { wrapped := enveloper, wrappedState := state, items := fun _ => none,
    expiration := expiration }

end cached


/-! ## openpgp: the enveloped crypter -/

namespace openpgp

/-- Go `maxHeaderLenAllowed int = 4096 * 2`. -/
def maxHeaderLenAllowed : Nat := 4096 * 2

/-- Standard-library calls of `setupEncryptedKey`.  `Decode src` stands for
`base64.StdEncoding.Decode(dst, src)`: the bytes it stores at the front of
`dst`, or its error.  `ReadFile` is `os.ReadFile`. -/
structure Lib where
  Decode : List Byte → Except Error (List Byte)
  ReadFile : String → Except Error (List Byte)

/-- Go `base64.StdEncoding.DecodedLen(n)` (padded encoding): `n / 4 * 3`. -/
def DecodedLen (n : Nat) : Nat := n / 4 * 3

/-- Go `base64.StdEncoding.DecodeString(s)`: decode into a buffer of
`DecodedLen(len(s))` bytes and return the `n` bytes written, `dbuf[:n]`. -/
def DecodeString (lib : Lib) (s : String) : Except Error (List Byte) :=
  match lib.Decode (stringBytes s) with
  | Except.error err => Except.error err
  | Except.ok decoded => Except.ok ((fillBuf (DecodedLen (stringBytes s).length) decoded).take decoded.length)

/-- The payload cipher, package `github.com/ProtonMail/go-crypto/openpgp`.
`K` is a key ring (`openpgp.EntityList`), `ω` the writer returned by
`openpgp.Encrypt`, `ρ` the message returned by `openpgp.ReadMessage`.  The
engine reaches its sink and its source only through `Write` and `Read`. -/
structure Engine (K ω ρ : Type) where
  ReadArmoredKeyRing : List Byte → Except Error K
  Encrypt : {τ : Type} → Writer τ → τ → K → Except Error ω × τ
  ReadMessage : {σ : Type} → Reader σ → σ → K → Except Error ρ × σ

/-- Go `type Crypter struct`.  `encryptedKey = none` is the Go `nil` slice. -/
structure Crypter (κ : Type) where
  enveloper : EnveloperI κ
  encryptedKey : Option (List Byte)
  ArmoredKey : String
  IsUseArmoredKey : Bool
  ArmoredKeyPath : String
  IsUseArmoredKeyPath : Bool

/-- One access of `setupEncryptedKey` to its configured source. -/
inductive SourceAccess where
  /-- Go `base64.StdEncoding.DecodeString(crypter.ArmoredKey)`. -/
  | decodeString (s : String)
  /-- Go `os.ReadFile(crypter.ArmoredKeyPath)`. -/
  | readFile (path : String)
  /-- Go `base64.StdEncoding.Decode(encryptedKey, content)`. -/
  | decode (content : List Byte)
  deriving DecidableEq, Repr

/-- Result of `setupEncryptedKey`: the returned error, the crypter after,
and the accesses made to the configured source, in order. -/
structure SetupResult (κ : Type) where
  err : Option Error
  crypter : Crypter κ
  accesses : List SourceAccess

/-- Go `(*Crypter).setupEncryptedKey`. -/
def Crypter.setupEncryptedKey {κ : Type} (lib : Lib) (crypter : Crypter κ) : SetupResult κ :=
  if crypter.encryptedKey.isSome then
    { err := none, crypter := crypter, accesses := [] }
  else if crypter.encryptedKey.isSome then
    { err := none, crypter := crypter, accesses := [] }
  else if crypter.IsUseArmoredKey then
    match DecodeString lib crypter.ArmoredKey with
    | Except.error err =>
      { err := some err, crypter := crypter,
        accesses := [SourceAccess.decodeString crypter.ArmoredKey] }
    | Except.ok encryptedKey =>
      { err := none, crypter := { crypter with encryptedKey := some encryptedKey },
        accesses := [SourceAccess.decodeString crypter.ArmoredKey] }
  else if crypter.IsUseArmoredKeyPath then
    match lib.ReadFile crypter.ArmoredKeyPath with
    | Except.error err =>
      { err := some err, crypter := crypter,
        accesses := [SourceAccess.readFile crypter.ArmoredKeyPath] }
    | Except.ok content =>
      match lib.Decode content with
      | Except.error err =>
        { err := some err, crypter := crypter,
          accesses := [SourceAccess.readFile crypter.ArmoredKeyPath, SourceAccess.decode content] }
      | Except.ok decoded =>
        let encryptedKey := fillBuf (DecodedLen content.length) decoded
        { err := none, crypter := { crypter with encryptedKey := some encryptedKey },
          accesses := [SourceAccess.readFile crypter.ArmoredKeyPath, SourceAccess.decode content] }
  else
    { err := none, crypter := crypter, accesses := [] }

/-- The value `ioextensions.NewOnCloseFlusher(encryptedWriter, bufferedWriter)`
returned by `Encrypt`: the engine writer and the buffered writer it flushes
on close. -/
structure OnCloseFlusher (ω τ : Type) where
  encryptedWriter : ω
  bufferedWriter : bufio.Buffered τ

/-- Result of `Encrypt`: the returned `(io.WriteCloser, error)`, the crypter
and the enveloper state after, the underlying writer after, and the
arguments of the calls made to `enveloper.DecryptKey`, in order. -/
structure EncryptResult (κ τ ω : Type) where
  writer : Except Error (OnCloseFlusher ω τ)
  crypter : Crypter κ
  enveloperState : κ
  underlying : τ
  accesses : List SourceAccess
  decryptKeyCalls : List (List Byte)

/-- Go `(*Crypter).Encrypt`. -/
def Crypter.Encrypt {κ τ K ω ρ : Type} (lib : Lib) (engine : Engine K ω ρ) (w : Writer τ)
    (crypter : Crypter κ) (k : κ) (writer : τ) : EncryptResult κ τ ω :=
  let su := crypter.setupEncryptedKey lib
  match su.err with
  | some err =>
    { writer := Except.error err, crypter := su.crypter, enveloperState := k,
      underlying := writer, accesses := su.accesses, decryptKeyCalls := [] }
  | none =>
    let crypter := su.crypter
    let bufferedWriter := bufio.NewWriterSize w writer maxHeaderLenAllowed
    let header := crypter.enveloper.SerializeEncryptedKey (crypter.encryptedKey.getD [])
    if header.length > maxHeaderLenAllowed then
      { writer := Except.error Error.invalidSize, crypter := crypter, enveloperState := k,
        underlying := writer, accesses := su.accesses, decryptKeyCalls := [] }
    else
      let w1 := (bufio.Buffered.Writer w maxHeaderLenAllowed).Write bufferedWriter header
      match w1.fail with
      | some (_, err) =>
        { writer := Except.error (Error.wrapf err "can't write encryption key to buffer"),
          crypter := crypter, enveloperState := k, underlying := w1.next.underlying,
          accesses := su.accesses, decryptKeyCalls := [] }
      | none =>
        let d := crypter.enveloper.DecryptKey k (crypter.encryptedKey.getD [])
        match d.1 with
        | Except.error err =>
          { writer := Except.error (Error.wrapf err "can't decrypt encryption key"),
            crypter := crypter, enveloperState := d.2, underlying := w1.next.underlying,
            accesses := su.accesses, decryptKeyCalls := [crypter.encryptedKey.getD []] }
        | Except.ok key =>
          match engine.ReadArmoredKeyRing key with
          | Except.error err =>
            { writer := Except.error (Error.wrapf err "can't read decrypyed gpg key"),
              crypter := crypter, enveloperState := d.2, underlying := w1.next.underlying,
              accesses := su.accesses, decryptKeyCalls := [crypter.encryptedKey.getD []] }
          | Except.ok pubKey =>
            let e := engine.Encrypt (bufio.Buffered.Writer w maxHeaderLenAllowed) w1.next pubKey
            match e.1 with
            | Except.error err =>
              { writer := Except.error (Error.wrapf err "opengpg encryption error"),
                crypter := crypter, enveloperState := d.2, underlying := e.2.underlying,
                accesses := su.accesses, decryptKeyCalls := [crypter.encryptedKey.getD []] }
            | Except.ok encryptedWriter =>
              { writer := Except.ok { encryptedWriter := encryptedWriter, bufferedWriter := e.2 },
                crypter := crypter, enveloperState := d.2, underlying := e.2.underlying,
                accesses := su.accesses, decryptKeyCalls := [crypter.encryptedKey.getD []] }

/-- Result of `Decrypt`: the returned `(io.Reader, error)` (the reader being
`md.UnverifiedBody` of the engine's message), the enveloper state and the
buffered reader after, and the arguments of the calls made to
`enveloper.DecryptKey`, in order. -/
structure DecryptResult (κ σ ρ : Type) where
  reader : Except Error ρ
  enveloperState : κ
  bufferedReader : bufio.ReaderState σ
  decryptKeyCalls : List (List Byte)

/-- Go `(*Crypter).Decrypt`. -/
def Crypter.Decrypt {κ σ K ω ρ : Type} (engine : Engine K ω ρ) (r : Reader σ)
    (crypter : Crypter κ) (k : κ) (reader : σ) : DecryptResult κ σ ρ :=
  let bufferedReader := bufio.NewReaderSize reader
  let h := crypter.enveloper.ReadEncryptedKey (bufio.Reader r maxHeaderLenAllowed) bufferedReader
  match h.1 with
  | Except.error err =>
    { reader := Except.error err, enveloperState := k, bufferedReader := h.2,
      decryptKeyCalls := [] }
  | Except.ok encryptedKey =>
    let d := crypter.enveloper.DecryptKey k encryptedKey
    match d.1 with
    | Except.error err =>
      { reader := Except.error (Error.wrapf err "can't decrypt encryption key"),
        enveloperState := d.2, bufferedReader := h.2, decryptKeyCalls := [encryptedKey] }
    | Except.ok key =>
      match engine.ReadArmoredKeyRing key with
      | Except.error err =>
        { reader := Except.error (Error.wrapf err "can't read decrypyed gpg key"),
          enveloperState := d.2, bufferedReader := h.2, decryptKeyCalls := [encryptedKey] }
      | Except.ok secretKey =>
        let m := engine.ReadMessage (bufio.Reader r maxHeaderLenAllowed) h.2 secretKey
        match m.1 with
        | Except.error err =>
          { reader := Except.error (Error.wrapf err "opengpg decryption error"),
            enveloperState := d.2, bufferedReader := m.2, decryptKeyCalls := [encryptedKey] }
        | Except.ok md =>
          { reader := Except.ok md, enveloperState := d.2, bufferedReader := m.2,
            decryptKeyCalls := [encryptedKey] }

/-- Go `CrypterFromKey(armoredKey, enveloper)`. -/
def CrypterFromKey {κ : Type} (armoredKey : String) (enveloper : EnveloperI κ) : Crypter κ :=
  { enveloper := enveloper, encryptedKey := none, ArmoredKey := armoredKey,
    IsUseArmoredKey := true, ArmoredKeyPath := "", IsUseArmoredKeyPath := false }

/-- Go `CrypterFromKeyPath(armoredKeyPath, enveloper)`. -/
def CrypterFromKeyPath {κ : Type} (armoredKeyPath : String) (enveloper : EnveloperI κ) :
    Crypter κ :=
  { enveloper := enveloper, encryptedKey := none, ArmoredKey := "",
    IsUseArmoredKey := false, ArmoredKeyPath := armoredKeyPath, IsUseArmoredKeyPath := true }

end openpgp

/-! ## `encoding/base64`, standard encoding -/

namespace base64

/-- Go `decodeMap` of `StdEncoding`: the value of a character of the
alphabet `A-Z a-z 0-9 + /`, and nothing for any other byte. -/
def decodeMap (c : Byte) : Option Nat :=
  if 65 ≤ c.val ∧ c.val ≤ 90 then some (c.val - 65)
  else if 97 ≤ c.val ∧ c.val ≤ 122 then some (c.val - 71)
  else if 48 ≤ c.val ∧ c.val ≤ 57 then some (c.val + 4)
  else if c.val = 43 then some 62
  else if c.val = 47 then some 63
  else none

/-- The error `base64.CorruptInputError`. -/
def CorruptInputError : Error := Error.other "illegal base64 data"

/-- The three bytes of the 24-bit group of four 6-bit values. -/
def quantum (x y z v : Nat) : List Byte :=
  let val := x * 2 ^ 18 + y * 2 ^ 12 + z * 2 ^ 6 + v
  [Fin.ofNat (val / 2 ^ 16), Fin.ofNat (val / 2 ^ 8), Fin.ofNat val]

/-- Decoding of input without line breaks, four characters at a time
(`decodeQuantum`): a full group gives three bytes; a last group `xy==` gives
one byte and `xyz=` two; anything else, also input after the padding or a
last group of fewer than four characters, is corrupt. -/
def decodeQuanta : List Byte → Except Error (List Byte)
  | [] => Except.ok []
  | a :: b :: c :: d :: rest =>
    match decodeMap a, decodeMap b, decodeMap c, decodeMap d with
    | some x, some y, some z, some v =>
      match decodeQuanta rest with
      | Except.ok out => Except.ok (quantum x y z v ++ out)
      | Except.error err => Except.error err
    | some x, some y, some z, none =>
      if d = 61 ∧ rest = [] then Except.ok ((quantum x y z 0).take 2)
      else Except.error CorruptInputError
    | some x, some y, none, _ =>
      if c = 61 ∧ d = 61 ∧ rest = [] then Except.ok ((quantum x y 0 0).take 1)
      else Except.error CorruptInputError
    | _, _, _, _ => Except.error CorruptInputError
  | _ => Except.error CorruptInputError

/-- Go `base64.StdEncoding.Decode(dst, src)`: the bytes stored at the front of
`dst`, or the error.  Carriage returns and line feeds in `src` are skipped
wherever they stand. -/
def Decode (src : List Byte) : Except Error (List Byte) :=
  decodeQuanta (src.filter (fun c => decide (c ≠ 10 ∧ c ≠ 13)))

end base64

namespace openpgp

/-- The standard library over the file system `ReadFile`. -/
def StdLib (ReadFile : String → Except Error (List Byte)) : Lib where
  Decode := base64.Decode
  ReadFile := ReadFile

end openpgp

/-! ## The payload cipher as a transformer of byte streams, and the streams
around it -/

/-- Reading a source to its end in requests of `chunk` bytes, as `io.ReadAll`
does: the bytes of every `Read` are collected until one reports an error;
`io.EOF` ends the data, any other error is returned.  `fuel` bounds the
number of `Read` calls; `none` means it did not suffice. -/
def readAll {σ : Type} (r : Reader σ) (chunk : Nat) :
    Nat → σ → Option (Except Error (List Byte) × σ)
  | 0, _ => none
  | fuel + 1, s =>
    let u := r.Read s chunk
    match u.err with
    | some Error.EOF => some (Except.ok (u.data.take chunk), u.next)
    | some err => some (Except.error err, u.next)
    | none =>
      match readAll r chunk fuel u.next with
      | none => none
      | some (Except.ok rest, s2) => some (Except.ok (u.data.take chunk ++ rest), s2)
      | some (Except.error err, s2) => some (Except.error err, s2)

namespace openpgp

/-- A payload cipher described by the bytes it emits and accepts.  `start`
is `openpgp.Encrypt`: the state of the new writer and the bytes it writes to
its sink at once; `write` is a `Write` of plaintext on that writer and
`close` its `Close`, each with the bytes written to the sink; `decrypt` is
the plaintext that reading a message to its end yields from the bytes of its
source. -/
structure StreamCipher (K ω : Type) where
  ReadArmoredKeyRing : List Byte → Except Error K
  start : K → ω × List Byte
  write : ω → List Byte → ω × List Byte
  close : ω → List Byte
  decrypt : K → List Byte → Except Error (List Byte)

/-- The bytes a writer in state `s` emits for the plaintext chunks `ps`
written one after another and the final `Close`. -/
def StreamCipher.emit {K ω : Type} (cipher : StreamCipher K ω) : ω → List (List Byte) → List Byte
  | s, [] => cipher.close s
  | s, p :: ps => (cipher.write s p).2 ++ StreamCipher.emit cipher (cipher.write s p).1 ps

/-- The whole ciphertext for the plaintext chunks `ps` under the key ring
`recipients`: what the writer emits from its creation to its `Close`. -/
def StreamCipher.ciphertext {K ω : Type} (cipher : StreamCipher K ω) (recipients : K)
    (ps : List (List Byte)) : List Byte :=
  (cipher.start recipients).2 ++ cipher.emit (cipher.start recipients).1 ps

/-- The `Write` method of the cipher's writer over the sink `w`. -/
def StreamCipher.Write {K ω τ : Type} (cipher : StreamCipher K ω) (w : Writer τ) (sink : τ)
    (s : ω) (p : List Byte) : Option Error × ω × τ :=
  let r := w.Write sink (cipher.write s p).2
  (r.fail.map Prod.snd, (cipher.write s p).1, r.next)

/-- The `Close` method of the cipher's writer over the sink `w`. -/
def StreamCipher.Close {K ω τ : Type} (cipher : StreamCipher K ω) (w : Writer τ) (sink : τ)
    (s : ω) : Option Error × τ :=
  let r := w.Write sink (cipher.close s)
  (r.fail.map Prod.snd, r.next)

/-- The cipher as the engine of the crypter.  `openpgp.Encrypt` writes the
start of the message to its sink and fails when that write fails;
`openpgp.ReadMessage` hands out a message that remembers the key ring, its
body still unread on the source. -/
def StreamCipher.toEngine {K ω : Type} (cipher : StreamCipher K ω) : Engine K ω K where
  ReadArmoredKeyRing := cipher.ReadArmoredKeyRing
  Encrypt := fun w sink recipients =>
    let r := w.Write sink (cipher.start recipients).2
    match r.fail with
    | some (_, err) => (Except.error err, r.next)
    | none => (Except.ok (cipher.start recipients).1, r.next)
  ReadMessage := fun _ source secretKey => (Except.ok secretKey, source)

/-- Reading everything from the reader `Decrypt` returns (the body of the
message `md`): the cipher reads its source `r` to the end and decrypts what
it held. -/
def StreamCipher.readBody {K ω σ : Type} (cipher : StreamCipher K ω) (r : Reader σ)
    (chunk fuel : Nat) (md : K) (source : σ) : Option (Except Error (List Byte)) :=
  match readAll r chunk fuel source with
  | none => none
  | some (Except.error err, _) => some (Except.error err)
  | some (Except.ok bytes, _) => some (cipher.decrypt md bytes)

/-- Modelled from the spec: the `Write` method of the writer that `Encrypt`
returns, `ioextensions.NewOnCloseFlusher(encryptedWriter, bufferedWriter)`;
package `ioextensions` is not among the sources.  The spec: "a write-adapter
that, on each write, forwards to the cipher engine".  The cipher's sink is
the buffered writer of `Encrypt`. -/
def OnCloseFlusher.Write {K ω τ : Type} (cipher : StreamCipher K ω) (w : Writer τ)
    (f : OnCloseFlusher ω τ) (p : List Byte) : Option Error × OnCloseFlusher ω τ :=
  let r := cipher.Write (bufio.Buffered.Writer w maxHeaderLenAllowed) f.bufferedWriter
    f.encryptedWriter p
  (r.1, { encryptedWriter := r.2.1, bufferedWriter := r.2.2 })

/-- Modelled from the spec: the `Close` method of the writer that `Encrypt`
returns; package `ioextensions` is not among the sources.  The spec: "on
close, flushes the staging buffer before flushing cipher output so the
header always precedes ciphertext on the wire".  The staging buffer is
flushed; then the cipher writer is closed, which sends its last bytes to the
staging buffer, and these are flushed out.  The first error ends the
close. -/
def OnCloseFlusher.Close {K ω τ : Type} (cipher : StreamCipher K ω) (w : Writer τ)
    (f : OnCloseFlusher ω τ) : Option Error × bufio.Buffered τ :=
  let f1 := bufio.Buffered.Flush w f.bufferedWriter
  match f1.1 with
  | some err => (some err, f1.2)
  | none =>
    let c := cipher.Close (bufio.Buffered.Writer w maxHeaderLenAllowed) f1.2 f.encryptedWriter
    match c.1 with
    | some err => (some err, c.2)
    | none => bufio.Buffered.Flush w c.2

/-- Writing the plaintext chunks `ps` one after another through the writer
that `Encrypt` returned and closing it; the first error ends it. -/
def OnCloseFlusher.WriteAllClose {K ω τ : Type} (cipher : StreamCipher K ω) (w : Writer τ) :
    OnCloseFlusher ω τ → List (List Byte) → Option Error × bufio.Buffered τ
  | f, [] => OnCloseFlusher.Close cipher w f
  | f, p :: ps =>
    match (OnCloseFlusher.Write cipher w f p).1 with
    | some err => (some err, (OnCloseFlusher.Write cipher w f p).2.bufferedWriter)
    | none => OnCloseFlusher.WriteAllClose cipher w (OnCloseFlusher.Write cipher w f p).2 ps

end openpgp

/-! ## Recording the requests made to a reader -/

/-- The reader `r` with a log: every `Read` call appends the length of the
buffer it was given to the list kept next to the state of `r`. -/
def recording {σ : Type} (r : Reader σ) : Reader (σ × List Nat) where
  Read := fun s n =>
    let u := r.Read s.1 n
    { data := u.data, err := u.err, next := (u.next, s.2 ++ [n]) }

/-! ## Stand-ins for the collaborators, used to run the model on concrete inputs -/

namespace standin

/-- A stand-in for `sha1.Sum`: the input itself. -/
def digest : List Byte → List Byte := fun s => s

/-- A KMS that decrypts every ciphertext to the ciphertext followed by the
byte 42, and counts its calls. -/
def kmsUp : Nat → String → List Byte → Except Error (List Byte) × Nat :=
  fun k _ ciphertext => (Except.ok (ciphertext ++ [42]), k + 1)

/-- A KMS that fails every call, and counts its calls. -/
def kmsDown : Nat → String → List Byte → Except Error (List Byte) × Nat :=
  fun k _ _ => (Except.error (Error.other "kms unavailable"), k + 1)

/-- An empty cache of the given TTL over the working KMS. -/
def cacheUp (expiration : Duration) : cached.Enveloper Nat :=
  cached.EnveloperWithCache (yckms.Enveloper "key-id" kmsUp) 0 expiration

/-- A cache over the failing KMS with the given entries. -/
def cacheDown (items : String → Option cached.Item) : cached.Enveloper Nat :=
  { cached.EnveloperWithCache (yckms.Enveloper "key-id" kmsDown) 0 60 with items := items }

/-- A payload cipher that accepts every key ring, writes nothing when its
writer is created and reads nothing when its message is opened. -/
def engine : openpgp.Engine Unit Unit Unit where
  ReadArmoredKeyRing := fun _ => Except.ok ()
  Encrypt := fun _ sink _ => (Except.ok (), sink)
  ReadMessage := fun _ source _ => (Except.ok (), source)

/-- A crypter over the `yckms` enveloper and the working KMS whose wrapped
key is already resolved. -/
def crypter (encryptedKey : List Byte) : openpgp.Crypter Nat :=
  { openpgp.CrypterFromKey "" (yckms.Enveloper "key-id" kmsUp) with
    encryptedKey := some encryptedKey }

/-- A crypter over the `yckms` enveloper and the failing KMS whose wrapped
key is already resolved. -/
def crypterDown (encryptedKey : List Byte) : openpgp.Crypter Nat :=
  { openpgp.CrypterFromKey "" (yckms.Enveloper "key-id" kmsDown) with
    encryptedKey := some encryptedKey }

/-- No file system and no base64 input: every call fails. -/
def lib : openpgp.Lib where
  Decode := fun _ => Except.error (Error.other "illegal base64 data")
  ReadFile := fun _ => Except.error (Error.other "no such file")

/-- A file system with the one file `/keys/wrapped.b64`, holding the text
`AQ==`, the base64 encoding of the single byte 01. -/
def files : String → Except Error (List Byte) :=
  fun path =>
    if path = "/keys/wrapped.b64" then Except.ok (stringBytes "AQ==")
    else Except.error (Error.other "no such file")

/-- A cipher that adds 1 to every byte: the writer emits the byte 80 when it
is created, each chunk shifted as it is written, and the byte 81 on close;
reading strips the two marks and shifts back. -/
def shiftCipher : openpgp.StreamCipher Unit Unit where
  ReadArmoredKeyRing := fun _ => Except.ok ()
  start := fun _ => ((), [80])
  write := fun _ p => ((), p.map (fun b => b + 1))
  close := fun _ => [81]
  decrypt := fun _ c => Except.ok (((c.drop 1).take (c.length - 2)).map (fun b => b - 1))

end standin

/-! ## Lemmas: bytes, little endian, the in-memory reader -/

theorem Uint32_PutUint32 (v : Nat) : Uint32 (PutUint32 v) = v % 2 ^ 32 := by
  simp only [Uint32, PutUint32, List.getD_cons_zero, List.getD_cons_succ, Fin.ofNat]
  omega

theorem PutUint32_length (v : Nat) : (PutUint32 v).length = 4 := rfl

theorem fillBuf_exact (a : List Byte) : fillBuf a.length a = a := by
  simp [fillBuf, zeros]

theorem fillBuf_length (n : Nat) (data : List Byte) : (fillBuf n data).length = n := by
  simp only [fillBuf, zeros, List.length_append, List.length_take, List.length_replicate]
  omega

theorem bytesReader_Read_append (a b : List Byte) (h : a ≠ []) :
    bytesReader.Read (a ++ b) a.length = { data := a, err := none, next := b } := by
  have hl : (a ++ b).length ≠ 0 := by
    cases a with
    | nil => exact absurd rfl h
    | cons x xs => simp
  show (if (a ++ b).length = 0 then _ else _) = _
  rw [if_neg hl]
  simp

theorem bytesReader_Read_nonempty (s : List Byte) (n : Nat) (h : s ≠ []) :
    bytesReader.Read s n = { data := s.take n, err := none, next := s.drop n } := by
  have hl : s.length ≠ 0 := by
    cases s with
    | nil => exact absurd rfl h
    | cons x xs => simp
  show (if s.length = 0 then _ else _) = _
  rw [if_neg hl]

theorem bytesReader_Read_nil (n : Nat) :
    bytesReader.Read [] n = { data := [], err := some Error.EOF, next := [] } := by
  simp [bytesReader]

namespace yckms

theorem magic_eq :
    magic = [101, 110, 118, 101, 108, 111, 112, 101, 45, 121, 99, 45, 107, 109, 115] := by
  decide

theorem magic_length : magic.length = 15 := by decide

/-- Reading back a well-formed header from an in-memory stream: the parse
returns the payload and stops right after it. -/
theorem readEncryptedKey_header (len4 W T : List Byte) (hl : len4.length = 4)
    (hW : Uint32 len4 = W.length) (hne : W ≠ []) :
    readEncryptedKey bytesReader ((magic ++ [schemeVersion]) ++ (len4 ++ (W ++ T)))
      = (Except.ok W, T) := by
  have h16 : magic.length + 1 = (magic ++ [schemeVersion]).length := by simp
  have hne16 : magic ++ [schemeVersion] ≠ [] := by simp
  have hne4 : len4 ≠ [] := by
    intro h; rw [h] at hl; simp at hl
  unfold readEncryptedKey
  simp only []
  rw [h16, bytesReader_Read_append _ _ hne16]
  simp only [fillBuf_exact]
  have ht : (magic ++ [schemeVersion]).take magic.length = magic := by simp
  have hv : (magic ++ [schemeVersion]).getD magic.length 0 = schemeVersion := by
    simp [List.getD_eq_getElem?_getD]
  rw [ht, hv]
  simp only [ne_eq, not_true_eq_false, if_false]
  rw [← hl, bytesReader_Read_append _ _ hne4]
  simp only [fillBuf_exact]
  rw [hW, bytesReader_Read_append _ _ hne]
  simp only [fillBuf_exact]

end yckms

/-! ## The claims about the header codec -/

/-- C9 (wire layout): for a wrapped key `W` shorter than `2 ^ 32` bytes,
`serializeEncryptedKey W` is the 15 bytes of "envelope-yc-kms", the byte
`0x01`, the length of `W` as four little-endian bytes, then `W`; it is
`20 + len W` bytes long, and the number decoded from bytes 16..19 is the
number of payload bytes that follow. -/
theorem C9_wire_layout (W : List Byte) (hlen : W.length < 2 ^ 32) :
    yckms.serializeEncryptedKey W
        = [101, 110, 118, 101, 108, 111, 112, 101, 45, 121, 99, 45, 107, 109, 115]
          ++ [(1 : Byte)]
          ++ [Fin.ofNat (W.length % 256), Fin.ofNat (W.length / 256 % 256),
              Fin.ofNat (W.length / 65536 % 256), Fin.ofNat (W.length / 16777216 % 256)]
          ++ W
      ∧ yckms.magic = stringBytes "envelope-yc-kms"
      ∧ (yckms.serializeEncryptedKey W).length = 20 + W.length
      ∧ Uint32 (((yckms.serializeEncryptedKey W).drop 16).take 4) = W.length
      ∧ ((yckms.serializeEncryptedKey W).drop 20).length = W.length
      ∧ (yckms.serializeEncryptedKey W).drop 20 = W := by
  have hmod : W.length % 2 ^ 32 = W.length := Nat.mod_eq_of_lt hlen
  have hser : yckms.serializeEncryptedKey W
      = yckms.magic ++ [yckms.schemeVersion] ++ PutUint32 W.length ++ W := by
    simp only [yckms.serializeEncryptedKey, toUint32, hmod]
  have hd20 : (yckms.serializeEncryptedKey W).drop 20 = W := by
    rw [hser, yckms.magic_eq]
    simp [PutUint32]
  refine ⟨?_, rfl, ?_, ?_, ?_, hd20⟩
  · rw [hser, yckms.magic_eq]
    simp only [PutUint32, yckms.schemeVersion, Fin.ofNat, Nat.mod_mod]
    rfl
  · rw [hser, yckms.magic_eq]
    simp [PutUint32]
    omega
  · have h : ((yckms.serializeEncryptedKey W).drop 16).take 4 = PutUint32 W.length := by
      rw [hser, yckms.magic_eq]
      simp [PutUint32]
    rw [h, Uint32_PutUint32, hmod]
  · rw [hd20]

theorem C9_wire_layout_witness :
    (yckms.serializeEncryptedKey [1, 2, 3]).length = 20 + 3
      ∧ Uint32 (((yckms.serializeEncryptedKey [1, 2, 3]).drop 16).take 4) = 3 :=
  ⟨(C9_wire_layout [1, 2, 3] (by decide)).2.2.1, (C9_wire_layout [1, 2, 3] (by decide)).2.2.2.1⟩

/-- C1 (header self-delimiting round trip): for a non-empty wrapped key `W`
shorter than `2 ^ 32` bytes and any trailing bytes `T`, `readEncryptedKey` on
an in-memory stream holding `serializeEncryptedKey W ++ T` returns `W`
without error and leaves exactly `T` unread, so it consumed
`len(magic) + 1 + 4 + len W = 20 + len W` bytes. -/
theorem C1_header_round_trip (W T : List Byte) (hne : W ≠ []) (hlen : W.length < 2 ^ 32) :
    yckms.readEncryptedKey bytesReader (yckms.serializeEncryptedKey W ++ T) = (Except.ok W, T)
      ∧ (yckms.serializeEncryptedKey W ++ T).length
          - (yckms.readEncryptedKey bytesReader (yckms.serializeEncryptedKey W ++ T)).2.length
          = yckms.magic.length + 1 + 4 + W.length
      ∧ yckms.magic.length + 1 + 4 + W.length = 20 + W.length := by
  have hmod : W.length % 2 ^ 32 = W.length := Nat.mod_eq_of_lt hlen
  have hser : yckms.serializeEncryptedKey W ++ T
      = (yckms.magic ++ [yckms.schemeVersion]) ++ (PutUint32 W.length ++ (W ++ T)) := by
    simp only [yckms.serializeEncryptedKey, toUint32, hmod, List.append_assoc]
  have hread := yckms.readEncryptedKey_header (PutUint32 W.length) W T (PutUint32_length _)
    (by rw [Uint32_PutUint32, hmod]) hne
  rw [← hser] at hread
  refine ⟨hread, ?_, ?_⟩
  · rw [hread, hser]
    simp [yckms.magic_length, PutUint32_length]
    omega
  · rw [yckms.magic_length]

theorem C1_header_round_trip_witness :
    yckms.readEncryptedKey bytesReader (yckms.serializeEncryptedKey [1, 2, 3] ++ [9, 9])
      = (Except.ok [1, 2, 3], [9, 9]) :=
  (C1_header_round_trip [1, 2, 3] [9, 9] (by decide) (by decide)).1

/-- C5 (magic and version rejection): on an in-memory stream of at least 16
bytes, `readEncryptedKey` fails with the invalid-format error when the first
15 bytes differ from the magic, whatever the 16th byte is, and with the
distinct version-not-supported error when they equal the magic and the 16th
byte is not 1; in both cases no key is returned. -/
theorem C5_magic_version_rejection (s : List Byte) (h16 : 16 ≤ s.length) :
    (s.take 15 ≠ yckms.magic →
        (yckms.readEncryptedKey bytesReader s).1 = Except.error Error.invalidFormat)
      ∧ (s.take 15 = yckms.magic → s.getD 15 0 ≠ 1 →
        (yckms.readEncryptedKey bytesReader s).1 = Except.error Error.versionNotSupported)
      ∧ Error.invalidFormat ≠ Error.versionNotSupported := by
  have hne : s ≠ [] := by
    intro h; rw [h] at h16; simp at h16
  have hfill : fillBuf (yckms.magic.length + 1) (s.take (yckms.magic.length + 1))
      = s.take 16 := by
    have hl : (s.take 16).length = 16 := by simp; omega
    rw [yckms.magic_length]
    show fillBuf 16 (s.take 16) = s.take 16
    have h := fillBuf_exact (s.take 16)
    rwa [hl] at h
  have ht : (s.take 16).take yckms.magic.length = s.take 15 := by
    rw [yckms.magic_length, List.take_take]; rfl
  have hv : (s.take 16).getD yckms.magic.length 0 = s.getD 15 0 := by
    rw [yckms.magic_length]
    simp [List.getD_eq_getElem?_getD, List.getElem?_take]
  refine ⟨?_, ?_, by decide⟩
  · intro hm
    unfold yckms.readEncryptedKey
    simp only []
    rw [bytesReader_Read_nonempty _ _ hne]
    simp only [hfill, ht]
    rw [if_pos hm]
  · intro hm hver
    unfold yckms.readEncryptedKey
    simp only []
    rw [bytesReader_Read_nonempty _ _ hne]
    simp only [hfill, ht, hv]
    rw [if_neg (by simpa using hm), if_pos (by
      intro h; exact hver (by rw [← h]; rfl))]

theorem C5_magic_version_rejection_witness :
    (yckms.readEncryptedKey bytesReader (List.replicate 16 7)).1
        = Except.error Error.invalidFormat
      ∧ (yckms.readEncryptedKey bytesReader (yckms.magic ++ [2, 0, 0, 0, 0])).1
        = Except.error Error.versionNotSupported :=
  ⟨(C5_magic_version_rejection (List.replicate 16 7) (by decide)).1 (by decide),
   (C5_magic_version_rejection (yckms.magic ++ [2, 0, 0, 0, 0]) (by decide)).2.1
      (by decide) (by decide)⟩

/-- C6 (truncated input), the code at a truncated stream: the header declares
3 payload bytes and the stream ends after 1; `readEncryptedKey` reports no
error and returns the one byte followed by two zero bytes. -/
theorem C6_truncated_payload_accepted :
    yckms.readEncryptedKey bytesReader (yckms.magic ++ [1] ++ [3, 0, 0, 0] ++ [170])
      = (Except.ok [170, 0, 0], []) := by
  decide

/-! ## Lemmas: the caching enveloper -/

namespace cached

variable {κ : Type}

theorem isFresh_iff (item : Item) (now : Time) :
    item.isFresh now = true ↔ item.ExpiredAt = 0 ∨ now < item.ExpiredAt := by
  simp [Item.isFresh, time.IsZero, time.After]

theorem isFresh_false_iff (item : Item) (now : Time) :
    item.isFresh now = false ↔ item.ExpiredAt ≠ 0 ∧ item.ExpiredAt ≤ now := by
  rw [← Bool.not_eq_true, isFresh_iff]
  constructor
  · intro h
    exact ⟨fun h0 => h (Or.inl h0), not_lt.mp (fun hl => h (Or.inr hl))⟩
  · rintro ⟨h0, hle⟩ (h | h)
    · exact h0 h
    · exact absurd h (not_lt.mpr hle)

/-- A fresh entry answers the call: no call underneath, nothing changes. -/
theorem DecryptKey_hit (sha1Sum : List Byte → List Byte) (e : Enveloper κ)
    (tCheck tStore : Time) (C : List Byte) (item : Item)
    (h : e.items (createKey sha1Sum C) = some item) (hf : item.isFresh tCheck = true) :
    e.DecryptKey sha1Sum tCheck tStore C
      = { key := Except.ok item.Object, enveloper := e, calls := [] } := by
  simp [Enveloper.DecryptKey, h, hf]

/-- Without a fresh entry the call goes underneath; on success the result is
stored under `createKey C`. -/
theorem DecryptKey_refresh (sha1Sum : List Byte → List Byte) (e : Enveloper κ)
    (tCheck tStore : Time) (C P : List Byte)
    (h : e.items (createKey sha1Sum C) = none
      ∨ ∃ item, e.items (createKey sha1Sum C) = some item ∧ item.isFresh tCheck = false)
    (hok : (e.wrapped.DecryptKey e.wrappedState C).1 = Except.ok P) :
    e.DecryptKey sha1Sum tCheck tStore C
      = { key := Except.ok P,
          enveloper := { e with
            wrappedState := (e.wrapped.DecryptKey e.wrappedState C).2
            items := mapSet e.items (createKey sha1Sum C)
              { Object := P,
                ExpiredAt := if e.expiration > 0 then time.Add tStore e.expiration
                  else time.zero } },
          calls := [C] } := by
  rcases h with h | ⟨item, h, hf⟩
  · simp [Enveloper.DecryptKey, h, hok]
  · simp [Enveloper.DecryptKey, h, hf, hok]

/-- Without a fresh entry the call goes underneath; on failure an existing
entry is returned, else the error. -/
theorem DecryptKey_failure (sha1Sum : List Byte → List Byte) (e : Enveloper κ)
    (tCheck tStore : Time) (C : List Byte) (err : Error)
    (h : e.items (createKey sha1Sum C) = none
      ∨ ∃ item, e.items (createKey sha1Sum C) = some item ∧ item.isFresh tCheck = false)
    (hfail : (e.wrapped.DecryptKey e.wrappedState C).1 = Except.error err) :
    e.DecryptKey sha1Sum tCheck tStore C
      = { key := match e.items (createKey sha1Sum C) with
                 | some item => Except.ok item.Object
                 | none => Except.error err,
          enveloper := { e with wrappedState := (e.wrapped.DecryptKey e.wrappedState C).2 },
          calls := [C] } := by
  rcases h with h | ⟨item, h, hf⟩
  · simp [Enveloper.DecryptKey, h, hfail]
  · simp [Enveloper.DecryptKey, h, hf, hfail]

/-- An entry that never expires survives every call, whatever its argument. -/
theorem DecryptKey_keeps_eternal (sha1Sum : List Byte → List Byte) (e : Enveloper κ)
    (tCheck tStore : Time) (C : List Byte) (k : String) (P : List Byte)
    (h : e.items k = some { Object := P, ExpiredAt := 0 }) :
    (e.DecryptKey sha1Sum tCheck tStore C).enveloper.items k
      = some { Object := P, ExpiredAt := 0 } := by
  by_cases hk : createKey sha1Sum C = k
  · subst hk
    rw [DecryptKey_hit sha1Sum e tCheck tStore C _ h ((isFresh_iff _ _).2 (Or.inl rfl))]
    exact h
  · have hk2 : ¬ k = createKey sha1Sum C := fun h2 => hk h2.symm
    unfold Enveloper.DecryptKey
    simp only []
    split
    · exact h
    · split
      · split <;> exact h
      · simp only [mapSet, if_neg hk2]
        exact h

theorem DecryptKeys_keeps_eternal (sha1Sum : List Byte → List Byte) (later : List (Call κ))
    (e : Enveloper κ) (k : String) (P : List Byte)
    (h : e.items k = some { Object := P, ExpiredAt := 0 }) :
    (e.DecryptKeys sha1Sum later).items k = some { Object := P, ExpiredAt := 0 } := by
  induction later generalizing e with
  | nil => exact h
  | cons c cs ih =>
    unfold Enveloper.DecryptKeys
    apply ih
    apply DecryptKey_keeps_eternal
    exact h

end cached

/-! ## The claims about the caching enveloper -/

section CachedClaims

open cached

variable {κ : Type}

/-- C2 (cache hit avoids KMS): with a positive TTL, if a `DecryptKey C` call
went to the underlying `DecryptKey` and that succeeded with `P`, storing the
entry at clock reading `tStore` no earlier than the call time `t0`, then a
second `DecryptKey C` at any time `t1 < t0 + TTL` returns `P`, makes no call
to the underlying `DecryptKey`, and changes nothing. -/
theorem C2_cache_hit_avoids_kms (sha1Sum : List Byte → List Byte) (e : Enveloper κ)
    (C P : List Byte) (tCheck tStore t0 t1 tStore1 : Time)
    (hTTL : 0 < e.expiration)
    (hcalled : (e.DecryptKey sha1Sum tCheck tStore C).calls = [C])
    (hok : (e.wrapped.DecryptKey e.wrappedState C).1 = Except.ok P)
    (h0 : t0 ≤ tStore) (h1 : t1 < t0 + e.expiration) :
    ((e.DecryptKey sha1Sum tCheck tStore C).enveloper.DecryptKey sha1Sum t1 tStore1 C).key
        = Except.ok P
      ∧ ((e.DecryptKey sha1Sum tCheck tStore C).enveloper.DecryptKey sha1Sum t1 tStore1 C).calls
        = []
      ∧ ((e.DecryptKey sha1Sum tCheck tStore C).enveloper.DecryptKey sha1Sum t1 tStore1 C).enveloper
        = (e.DecryptKey sha1Sum tCheck tStore C).enveloper := by
  have hmiss : e.items (createKey sha1Sum C) = none
      ∨ ∃ item, e.items (createKey sha1Sum C) = some item ∧ item.isFresh tCheck = false := by
    cases hi : e.items (createKey sha1Sum C) with
    | none => exact Or.inl rfl
    | some item =>
      refine Or.inr ⟨item, rfl, ?_⟩
      cases hf : item.isFresh tCheck with
      | false => rfl
      | true =>
        rw [DecryptKey_hit sha1Sum e tCheck tStore C item hi hf] at hcalled
        exact absurd hcalled (by simp)
  rw [DecryptKey_refresh sha1Sum e tCheck tStore C P hmiss hok]
  have hentry : (mapSet e.items (createKey sha1Sum C)
      { Object := P,
        ExpiredAt := if e.expiration > 0 then time.Add tStore e.expiration else time.zero })
        (createKey sha1Sum C)
      = some { Object := P, ExpiredAt := tStore + e.expiration } := by
    simp [mapSet, hTTL, time.Add]
  have hfresh : Item.isFresh { Object := P, ExpiredAt := tStore + e.expiration } t1 = true := by
    rw [isFresh_iff]
    right
    show t1 < tStore + e.expiration
    exact lt_of_lt_of_le h1 (add_le_add_right h0 _)
  rw [DecryptKey_hit sha1Sum _ t1 tStore1 C _ hentry hfresh]
  exact ⟨rfl, rfl, rfl⟩

theorem C2_cache_hit_avoids_kms_witness :
    (((standin.cacheUp 60).DecryptKey standin.digest 100 101 [1, 2]).enveloper.DecryptKey
        standin.digest 150 151 [1, 2]).key = Except.ok [1, 2, 42]
      ∧ (((standin.cacheUp 60).DecryptKey standin.digest 100 101 [1, 2]).enveloper.DecryptKey
        standin.digest 150 151 [1, 2]).calls = [] :=
  ⟨(C2_cache_hit_avoids_kms standin.digest (standin.cacheUp 60) [1, 2] [1, 2, 42]
      100 101 100 150 151 (by decide) (by decide) (by decide) (by decide) (by decide)).1,
   (C2_cache_hit_avoids_kms standin.digest (standin.cacheUp 60) [1, 2] [1, 2, 42]
      100 101 100 150 151 (by decide) (by decide) (by decide) (by decide) (by decide)).2.1⟩

/-- C3 (stale fallback): if the cache holds an entry for `createKey C` with
plaintext `P` whose expiry is set and not after now, and the underlying
`DecryptKey C` fails with any error, then `DecryptKey C` returns `P` with no
error, after one call underneath, and the cache is unchanged. -/
theorem C3_stale_fallback (sha1Sum : List Byte → List Byte) (e : Enveloper κ)
    (C P : List Byte) (expiredAt tCheck tStore : Time) (err : Error)
    (hentry : e.items (createKey sha1Sum C) = some { Object := P, ExpiredAt := expiredAt })
    (hset : expiredAt ≠ 0) (hpast : expiredAt ≤ tCheck)
    (hfail : (e.wrapped.DecryptKey e.wrappedState C).1 = Except.error err) :
    (e.DecryptKey sha1Sum tCheck tStore C).key = Except.ok P
      ∧ (e.DecryptKey sha1Sum tCheck tStore C).calls = [C]
      ∧ (e.DecryptKey sha1Sum tCheck tStore C).enveloper.items = e.items := by
  have hstale : Item.isFresh { Object := P, ExpiredAt := expiredAt } tCheck = false :=
    (isFresh_false_iff _ _).2 ⟨hset, hpast⟩
  rw [DecryptKey_failure sha1Sum e tCheck tStore C err (Or.inr ⟨_, hentry, hstale⟩) hfail]
  simp [hentry]

theorem C3_stale_fallback_witness :
    ((standin.cacheDown (fun k => if k = "0102" then some { Object := [7], ExpiredAt := 50 }
        else none)).DecryptKey standin.digest 100 101 [1, 2]).key = Except.ok [7] :=
  (C3_stale_fallback standin.digest
    (standin.cacheDown (fun k => if k = "0102" then some { Object := [7], ExpiredAt := 50 }
      else none))
    [1, 2] [7] 50 100 101 (Error.other "kms unavailable")
    (by decide) (by decide) (by decide) (by decide)).1

/-- C4 (cold-miss propagation): if the cache holds no entry for `createKey C`
and the underlying `DecryptKey C` fails with `err`, then `DecryptKey C`
returns no plaintext and exactly `err`, and the cache still holds no entry
for `createKey C` (it is unchanged). -/
theorem C4_cold_miss_propagation (sha1Sum : List Byte → List Byte) (e : Enveloper κ)
    (C : List Byte) (tCheck tStore : Time) (err : Error)
    (hnone : e.items (createKey sha1Sum C) = none)
    (hfail : (e.wrapped.DecryptKey e.wrappedState C).1 = Except.error err) :
    (e.DecryptKey sha1Sum tCheck tStore C).key = Except.error err
      ∧ (e.DecryptKey sha1Sum tCheck tStore C).enveloper.items (createKey sha1Sum C) = none
      ∧ (e.DecryptKey sha1Sum tCheck tStore C).enveloper.items = e.items
      ∧ (e.DecryptKey sha1Sum tCheck tStore C).calls = [C] := by
  rw [DecryptKey_failure sha1Sum e tCheck tStore C err (Or.inl hnone) hfail]
  simp [hnone]

theorem C4_cold_miss_propagation_witness :
    ((standin.cacheDown (fun _ => none)).DecryptKey standin.digest 100 101 [1, 2]).key
      = Except.error (Error.other "kms unavailable") :=
  (C4_cold_miss_propagation standin.digest (standin.cacheDown (fun _ => none)) [1, 2] 100 101
    (Error.other "kms unavailable") (by decide) (by decide)).1

/-- C10 (refresh and store rule): when `DecryptKey C` finds no entry for
`createKey C`, or one whose expiry is set and not after the clock reading,
the underlying `DecryptKey` is called exactly once; if that succeeds with
`P` the call returns `P` and the entry becomes `P` with expiry
`tStore + TTL` when `TTL > 0` and with the zero expiry when `TTL ≤ 0`; in the
latter case every later `DecryptKey C`, after any further calls and at any
time, returns `P` without a call underneath. -/
theorem C10_refresh_and_store (sha1Sum : List Byte → List Byte) (e : Enveloper κ)
    (C : List Byte) (tCheck tStore : Time)
    (hmiss : e.items (createKey sha1Sum C) = none
      ∨ ∃ item, e.items (createKey sha1Sum C) = some item
          ∧ item.ExpiredAt ≠ 0 ∧ item.ExpiredAt ≤ tCheck) :
    (e.DecryptKey sha1Sum tCheck tStore C).calls = [C]
      ∧ ∀ P, (e.wrapped.DecryptKey e.wrappedState C).1 = Except.ok P →
          (e.DecryptKey sha1Sum tCheck tStore C).key = Except.ok P
          ∧ (0 < e.expiration →
              (e.DecryptKey sha1Sum tCheck tStore C).enveloper.items (createKey sha1Sum C)
                = some { Object := P, ExpiredAt := tStore + e.expiration })
          ∧ (e.expiration ≤ 0 →
              (e.DecryptKey sha1Sum tCheck tStore C).enveloper.items (createKey sha1Sum C)
                = some { Object := P, ExpiredAt := 0 }
              ∧ ∀ (later : List (Call κ)) (t t2 : Time),
                  (((e.DecryptKey sha1Sum tCheck tStore C).enveloper.DecryptKeys sha1Sum
                      later).DecryptKey sha1Sum t t2 C).key = Except.ok P
                  ∧ (((e.DecryptKey sha1Sum tCheck tStore C).enveloper.DecryptKeys sha1Sum
                      later).DecryptKey sha1Sum t t2 C).calls = []) := by
  have hmiss2 : e.items (createKey sha1Sum C) = none
      ∨ ∃ item, e.items (createKey sha1Sum C) = some item ∧ item.isFresh tCheck = false := by
    rcases hmiss with h | ⟨item, h, h0, hle⟩
    · exact Or.inl h
    · exact Or.inr ⟨item, h, (isFresh_false_iff _ _).2 ⟨h0, hle⟩⟩
  constructor
  · cases hr : (e.wrapped.DecryptKey e.wrappedState C).1 with
    | error err => rw [DecryptKey_failure sha1Sum e tCheck tStore C err hmiss2 hr]
    | ok P => rw [DecryptKey_refresh sha1Sum e tCheck tStore C P hmiss2 hr]
  · intro P hok
    have hres := DecryptKey_refresh sha1Sum e tCheck tStore C P hmiss2 hok
    refine ⟨by rw [hres], ?_, ?_⟩
    · intro hpos
      rw [hres]
      simp [mapSet, hpos, time.Add]
    · intro hle
      have hnot : ¬ e.expiration > 0 := not_lt.mpr hle
      have hentry : (e.DecryptKey sha1Sum tCheck tStore C).enveloper.items (createKey sha1Sum C)
          = some { Object := P, ExpiredAt := 0 } := by
        rw [hres]
        simp [mapSet, hnot, time.zero]
      refine ⟨hentry, ?_⟩
      intro later t t2
      have hkeep := DecryptKeys_keeps_eternal sha1Sum later _ (createKey sha1Sum C) P hentry
      rw [DecryptKey_hit sha1Sum _ t t2 C _ hkeep ((isFresh_iff _ _).2 (Or.inl rfl))]
      exact ⟨rfl, rfl⟩

theorem C10_refresh_and_store_witness :
    ((standin.cacheUp 0).DecryptKey standin.digest 100 101 [1, 2]).calls = [[1, 2]]
      ∧ ((standin.cacheUp 0).DecryptKey standin.digest 100 101 [1, 2]).enveloper.items "0102"
        = some { Object := [1, 2, 42], ExpiredAt := 0 } :=
  ⟨(C10_refresh_and_store standin.digest (standin.cacheUp 0) [1, 2] 100 101
      (Or.inl (by decide))).1,
   (((C10_refresh_and_store standin.digest (standin.cacheUp 0) [1, 2] 100 101
      (Or.inl (by decide))).2 [1, 2, 42] (by decide)).2.2 (by decide)).1⟩

end CachedClaims


namespace bufio

theorem Reader_Read_fill (size n : Nat) (s : List Byte) (hs : s ≠ []) (hn : 0 < n)
    (hlt : n < size) :
    (bufio.Reader bytesReader size).Read { buf := [], err := none, rd := s } n
      = { data := (s.take size).take n, err := none,
          next := { buf := (s.take size).drop n, err := none, rd := s.drop size } } := by
  have hn0 : ¬ n = 0 := by omega
  have hge : ¬ n ≥ size := by omega
  have hts : (s.take size).take size = s.take size := by
    rw [List.take_take, min_self]
  have hgot : ¬ (s.take size).length = 0 := by
    cases s with
    | nil => exact absurd rfl hs
    | cons x xs =>
      have : 0 < size := by omega
      simp
      omega
  simp only [bufio.Reader, if_neg hn0, List.length_nil, if_true, if_neg hge,
    bytesReader_Read_nonempty s size hs, hts, if_neg hgot]

theorem Reader_Read_buffered {σ : Type} (r : WalG.Reader σ) (size n : Nat)
    (b : ReaderState σ) (hb : b.buf ≠ []) (hn : 0 < n) :
    (bufio.Reader r size).Read b n
      = { data := b.buf.take n, err := none, next := { b with buf := b.buf.drop n } } := by
  have hn0 : ¬ n = 0 := by omega
  have hl : ¬ b.buf.length = 0 := by
    cases hbuf : b.buf with
    | nil => exact absurd hbuf hb
    | cons x xs => simp
  simp only [bufio.Reader, if_neg hn0, if_neg hl]

end bufio

namespace yckms

/-- Reading a header through a `bufio.Reader` over an in-memory stream: the
first `Read` fills the buffer with at most `size` bytes, and the payload is
whatever of it the buffer still holds, padded with zeros to the declared
length. -/
theorem readEncryptedKey_bufio (size : Nat) (len4 rest : List Byte) (hl : len4.length = 4)
    (hsize : 20 < size) (hrest : rest ≠ []) (hpos : 0 < Uint32 len4) :
    readEncryptedKey (bufio.Reader bytesReader size)
        (bufio.NewReaderSize ((magic ++ [schemeVersion]) ++ (len4 ++ rest)))
      = (Except.ok (fillBuf (Uint32 len4) ((rest.take (size - 20)).take (Uint32 len4))),
         { buf := (rest.take (size - 20)).drop (Uint32 len4), err := none,
           rd := rest.drop (size - 20) }) := by
  have hne : (magic ++ [schemeVersion]) ++ (len4 ++ rest) ≠ [] := by simp
  have h16 : (magic ++ [schemeVersion]).length = 16 := by simp [magic_length]
  have hd1 : ((((magic ++ [schemeVersion]) ++ (len4 ++ rest)).take size).take (magic.length + 1))
      = magic ++ [schemeVersion] := by
    rw [List.take_take, magic_length]
    have : min (15 + 1) size = (magic ++ [schemeVersion]).length := by rw [h16]; omega
    rw [this, List.take_left']
    rfl
  have hb1 : ((((magic ++ [schemeVersion]) ++ (len4 ++ rest)).take size).drop (magic.length + 1))
      = len4 ++ rest.take (size - 20) := by
    rw [magic_length, List.take_append_eq_append_take, h16,
      List.take_of_length_le (by rw [h16]; omega), List.drop_append_eq_append_drop,
      List.drop_of_length_le (by rw [h16]), h16]
    simp only [Nat.sub_self, List.drop_zero, List.nil_append]
    rw [List.take_append_eq_append_take, hl, List.take_of_length_le (by rw [hl]; omega)]
    congr 2
  have hrd : ((magic ++ [schemeVersion]) ++ (len4 ++ rest)).drop size = rest.drop (size - 20) := by
    rw [List.drop_append_eq_append_drop, List.drop_of_length_le (by rw [h16]; omega), h16,
      List.nil_append, List.drop_append_eq_append_drop, hl,
      List.drop_of_length_le (by rw [hl]; omega), List.nil_append]
    congr 1
  have hne4 : len4 ++ rest.take (size - 20) ≠ [] := by
    intro h
    have := congrArg List.length h
    simp [hl] at this
  have hbuf : rest.take (size - 20) ≠ [] := by
    cases rest with
    | nil => exact absurd rfl hrest
    | cons x xs =>
      have : size - 20 = (size - 21) + 1 := by omega
      rw [this]
      simp
  unfold readEncryptedKey
  simp only [bufio.NewReaderSize]
  rw [bufio.Reader_Read_fill size _ _ hne (by omega) (by rw [magic_length]; omega)]
  simp only [hd1, hb1, hrd]
  have hfill : fillBuf (magic.length + 1) (magic ++ [schemeVersion]) = magic ++ [schemeVersion] := by
    have := fillBuf_exact (magic ++ [schemeVersion])
    rw [h16] at this
    rw [magic_length]
    exact this
  have ht : (magic ++ [schemeVersion]).take magic.length = magic := by simp
  have hv : (magic ++ [schemeVersion]).getD magic.length 0 = schemeVersion := by
    simp [List.getD_eq_getElem?_getD]
  rw [hfill, ht, hv]
  simp only [ne_eq, not_true_eq_false, if_false]
  rw [bufio.Reader_Read_buffered bytesReader size 4 _ hne4 (by omega)]
  simp only []
  have ht4 : (len4 ++ rest.take (size - 20)).take 4 = len4 := by
    rw [← hl, List.take_left']
    rfl
  have hd4 : (len4 ++ rest.take (size - 20)).drop 4 = rest.take (size - 20) := by
    rw [← hl, List.drop_left']
    rfl
  rw [ht4, hd4]
  have hf4 : fillBuf 4 len4 = len4 := by
    have := fillBuf_exact len4
    rwa [hl] at this
  rw [hf4, bufio.Reader_Read_buffered bytesReader size _ _ hbuf hpos]

end yckms


namespace yckms

theorem serializeEncryptedKey_length (W : List Byte) :
    (serializeEncryptedKey W).length = 20 + W.length := by
  simp only [serializeEncryptedKey, List.length_append, magic_length, PutUint32_length,
    List.length_singleton]

end yckms

namespace openpgp

variable {κ τ K ω ρ : Type}

theorem setupEncryptedKey_resolved (lib : Lib) (c : Crypter κ) (W : List Byte)
    (h : c.encryptedKey = some W) :
    c.setupEncryptedKey lib = { err := none, crypter := c, accesses := [] } := by
  simp [Crypter.setupEncryptedKey, h]

/-- With a resolved key, `Encrypt` answers the invalid-size error exactly when
the header is longer than the cap, and then it has touched nothing. -/
theorem Encrypt_invalidSize_iff (lib : Lib) (engine : Engine K ω ρ) (w : Writer τ)
    (c : Crypter κ) (k : κ) (writer : τ) (W : List Byte) (hW : c.encryptedKey = some W) :
    ((c.Encrypt lib engine w k writer).writer = Except.error Error.invalidSize
        ↔ maxHeaderLenAllowed < (c.enveloper.SerializeEncryptedKey W).length)
      ∧ ((c.Encrypt lib engine w k writer).writer = Except.error Error.invalidSize →
          (c.Encrypt lib engine w k writer).decryptKeyCalls = []
          ∧ (c.Encrypt lib engine w k writer).enveloperState = k
          ∧ (c.Encrypt lib engine w k writer).underlying = writer) := by
  have hsu := setupEncryptedKey_resolved lib c W hW
  by_cases hlen : (c.enveloper.SerializeEncryptedKey W).length > maxHeaderLenAllowed
  · have hres : c.Encrypt lib engine w k writer
        = { writer := Except.error Error.invalidSize, crypter := c, enveloperState := k,
            underlying := writer, accesses := [], decryptKeyCalls := [] } := by
      simp only [Crypter.Encrypt, hsu, hW, Option.getD_some, if_pos hlen]
    rw [hres]
    exact ⟨⟨fun _ => hlen, fun _ => rfl⟩, fun _ => ⟨rfl, rfl, rfl⟩⟩
  · have hne : (c.Encrypt lib engine w k writer).writer ≠ Except.error Error.invalidSize := by
      simp only [Crypter.Encrypt, hsu, hW, Option.getD_some, if_neg hlen]
      split
      · simp
      · split
        · simp
        · split
          · simp
          · split <;> simp
    exact ⟨⟨fun h => absurd h hne, fun h => absurd h hlen⟩, fun h => absurd h hne⟩

end openpgp

/-! ## The claims about the crypter -/

section CrypterClaims

open openpgp

variable {κ τ K ω ρ : Type}

/-- C7 (read-side header cap), the code at an oversize header: the stream is
the serialized header of an 8173-byte key, 8193 bytes in all, one more than
the cap.  `readEncryptedKey` returns the key without error, and `Decrypt`
reads the header without error too: it goes on to call `DecryptKey`, with
the 8172 payload bytes its buffer held and one zero byte, and returns a
reader. -/
theorem C7_oversize_header_accepted :
    maxHeaderLenAllowed < (yckms.serializeEncryptedKey (List.replicate 8173 7)).length
      ∧ yckms.readEncryptedKey bytesReader (yckms.serializeEncryptedKey (List.replicate 8173 7))
          = (Except.ok (List.replicate 8173 7), [])
      ∧ (Crypter.Decrypt standin.engine bytesReader (standin.crypter []) 0
          (yckms.serializeEncryptedKey (List.replicate 8173 7))).reader = Except.ok ()
      ∧ (Crypter.Decrypt standin.engine bytesReader (standin.crypter []) 0
          (yckms.serializeEncryptedKey (List.replicate 8173 7))).decryptKeyCalls
          = [List.replicate 8172 7 ++ [0]] := by
  have hser : yckms.serializeEncryptedKey (List.replicate 8173 7)
      = (yckms.magic ++ [yckms.schemeVersion]) ++ ([237, 31, 0, 0] ++ List.replicate 8173 7) := by
    simp only [yckms.serializeEncryptedKey, List.length_replicate, List.append_assoc]
    rfl
  have hu : Uint32 [237, 31, 0, 0] = 8173 := by decide
  have hne : List.replicate 8173 (7 : Byte) ≠ [] := by
    intro h
    have hl := congrArg List.length h
    rw [List.length_replicate] at hl
    exact absurd hl (by decide)
  have hdirect := yckms.readEncryptedKey_header [237, 31, 0, 0] (List.replicate 8173 7) []
    rfl (by rw [hu, List.length_replicate]) hne
  rw [List.append_nil] at hdirect
  have hbuf := yckms.readEncryptedKey_bufio maxHeaderLenAllowed [237, 31, 0, 0]
    (List.replicate 8173 7) rfl (by decide) hne (by decide)
  have hkey : fillBuf (Uint32 [237, 31, 0, 0])
      (((List.replicate 8173 (7 : Byte)).take (maxHeaderLenAllowed - 20)).take
        (Uint32 [237, 31, 0, 0])) = List.replicate 8172 7 ++ [0] := by
    have h1 : (List.replicate 8173 (7 : Byte)).take (maxHeaderLenAllowed - 20)
        = List.replicate 8172 7 := by
      rw [List.take_replicate]
      congr 1
    have h2 : (List.replicate 8172 (7 : Byte)).take 8173 = List.replicate 8172 7 := by
      rw [List.take_replicate]
      congr 1
    rw [hu, h1, h2]
    unfold fillBuf zeros
    rw [h2, List.length_replicate]
    rfl
  rw [hkey] at hbuf
  refine ⟨?_, ?_, ?_, ?_⟩
  · rw [yckms.serializeEncryptedKey_length, List.length_replicate]
    decide
  · rw [hser]
    exact hdirect
  · rw [hser]
    simp only [Crypter.Decrypt, standin.crypter, CrypterFromKey, yckms.Enveloper, hbuf,
      standin.kmsUp, standin.engine]
  · rw [hser]
    simp only [Crypter.Decrypt, standin.crypter, CrypterFromKey, yckms.Enveloper, hbuf,
      standin.kmsUp, standin.engine]

/-- C8 (write-side header cap): with a resolved wrapped key `W`, `Encrypt`
fails with the invalid-size error if and only if the serialized header is
longer than `maxHeaderLenAllowed = 8192` bytes, which for the yckms header is
`len W > 8172`; when it fails this way `DecryptKey` has not been called and
the underlying writer has not been written to; a header of exactly 8192
bytes passes the check. -/
theorem C8_write_side_header_cap (lib : Lib) (engine : Engine K ω ρ) (w : Writer τ)
    (c : Crypter κ) (k : κ) (writer : τ) (W : List Byte) (hW : c.encryptedKey = some W) :
    ((c.Encrypt lib engine w k writer).writer = Except.error Error.invalidSize
        ↔ maxHeaderLenAllowed < (c.enveloper.SerializeEncryptedKey W).length)
      ∧ maxHeaderLenAllowed = 8192
      ∧ (∀ (keyID : String) (kms : κ → String → List Byte → Except Error (List Byte) × κ),
          c.enveloper = yckms.Enveloper keyID kms →
          ((c.Encrypt lib engine w k writer).writer = Except.error Error.invalidSize
            ↔ 8172 < W.length))
      ∧ ((c.Encrypt lib engine w k writer).writer = Except.error Error.invalidSize →
          (c.Encrypt lib engine w k writer).decryptKeyCalls = []
          ∧ (c.Encrypt lib engine w k writer).enveloperState = k
          ∧ (c.Encrypt lib engine w k writer).underlying = writer)
      ∧ ((c.enveloper.SerializeEncryptedKey W).length = 8192 →
          (c.Encrypt lib engine w k writer).writer ≠ Except.error Error.invalidSize) := by
  have h := Encrypt_invalidSize_iff lib engine w c k writer W hW
  have hmax : maxHeaderLenAllowed = 8192 := by decide
  refine ⟨h.1, hmax, ?_, h.2, ?_⟩
  · intro keyID kms henv
    rw [h.1, henv]
    show maxHeaderLenAllowed < (yckms.serializeEncryptedKey W).length ↔ 8172 < W.length
    rw [yckms.serializeEncryptedKey_length, hmax]
    omega
  · intro h8192 hfail
    have := h.1.1 hfail
    rw [h8192, hmax] at this
    exact absurd this (by decide)

theorem C8_write_side_header_cap_witness :
    (((standin.crypter [1, 2, 3]).Encrypt standin.lib standin.engine bytesBuffer 0 []).writer
        = Except.error Error.invalidSize
      ↔ 8172 < ([1, 2, 3] : List Byte).length) :=
  (C8_write_side_header_cap standin.lib standin.engine bytesBuffer (standin.crypter [1, 2, 3])
    0 [] [1, 2, 3] rfl).2.2.1 "key-id" standin.kmsUp rfl

end CrypterClaims

/-! ## The header codec: the concrete scenario and short reads -/

/-- C14 (concrete scenario): `serializeEncryptedKey` of the bytes 01 02 03 is
the 23 bytes "envelope-yc-kms", 01, 03 00 00 00, 01 02 03, and
`readEncryptedKey` on exactly that byte sequence returns 01 02 03 with no
error and consumes all 23 bytes. -/
theorem C14_concrete_scenario :
    yckms.serializeEncryptedKey [1, 2, 3]
        = stringBytes "envelope-yc-kms" ++ [1] ++ [3, 0, 0, 0] ++ [1, 2, 3]
      ∧ (yckms.serializeEncryptedKey [1, 2, 3]).length = 23
      ∧ yckms.readEncryptedKey bytesReader
          (stringBytes "envelope-yc-kms" ++ [1] ++ [3, 0, 0, 0] ++ [1, 2, 3])
          = (Except.ok [1, 2, 3], [])
      ∧ (stringBytes "envelope-yc-kms" ++ [1] ++ [3, 0, 0, 0] ++ [1, 2, 3]).length
          - (yckms.readEncryptedKey bytesReader
              (stringBytes "envelope-yc-kms" ++ [1] ++ [3, 0, 0, 0] ++ [1, 2, 3])).2.length
          = 23 := by
  decide

namespace yckms

/-- The requests `readEncryptedKey` makes: one for the 16 bytes of magic and
version, then at most one for the 4 length bytes, then at most one for the
payload, of the decoded length. -/
theorem readEncryptedKey_requests {σ : Type} (r : Reader σ) (s : σ) :
    (readEncryptedKey (recording r) (s, [])).2.2 = [16]
      ∨ (readEncryptedKey (recording r) (s, [])).2.2 = [16, 4]
      ∨ (readEncryptedKey (recording r) (s, [])).2.2
          = [16, 4, Uint32 (fillBuf 4 (r.Read (r.Read s 16).next 4).data)] := by
  unfold readEncryptedKey
  simp only [recording, magic_length, List.nil_append]
  split
  · exact Or.inl rfl
  · split
    · exact Or.inl rfl
    · split
      · exact Or.inl rfl
      · split
        · exact Or.inr (Or.inl rfl)
        · split <;> exact Or.inr (Or.inr rfl)

/-- The result of `readEncryptedKey` when no `Read` reports an error and the
first 16 bytes pass the checks: the payload buffer, filled with whatever the
third `Read` delivered. -/
theorem readEncryptedKey_no_error {σ : Type} (r : Reader σ) (s : σ)
    (h1 : (r.Read s 16).err = none)
    (hmagic : (fillBuf 16 (r.Read s 16).data).take 15 = magic)
    (hversion : (fillBuf 16 (r.Read s 16).data).getD 15 0 = schemeVersion)
    (h2 : (r.Read (r.Read s 16).next 4).err = none)
    (h3 : (r.Read (r.Read (r.Read s 16).next 4).next
            (Uint32 (fillBuf 4 (r.Read (r.Read s 16).next 4).data))).err = none) :
    (readEncryptedKey r s).1
      = Except.ok (fillBuf (Uint32 (fillBuf 4 (r.Read (r.Read s 16).next 4).data))
          (r.Read (r.Read (r.Read s 16).next 4).next
            (Uint32 (fillBuf 4 (r.Read (r.Read s 16).next 4).data))).data) := by
  unfold readEncryptedKey
  simp only [magic_length, h1, hmagic, hversion, h2, h3, ne_eq, not_true_eq_false, if_false]

end yckms

/-- C16 (short reads are not refilled): `readEncryptedKey` makes at most one
`Read` call per header field, for 16, 4 and the declared number of bytes;
and when no `Read` reports an error, the first 16 bytes pass the checks and
the payload `Read` delivers `k` bytes with `k < L`, `L` the declared length
(in particular for `0 < k < L`), it returns success with a key of length
`L`: the `k` bytes read followed by `L - k` zero bytes. -/
theorem C16_short_reads_not_refilled {σ : Type} (r : Reader σ) (s : σ) (L : Nat)
    (payload : List Byte)
    (h1 : (r.Read s 16).err = none)
    (hmagic : (fillBuf 16 (r.Read s 16).data).take 15 = yckms.magic)
    (hversion : (fillBuf 16 (r.Read s 16).data).getD 15 0 = 1)
    (h2 : (r.Read (r.Read s 16).next 4).err = none)
    (hL : Uint32 (fillBuf 4 (r.Read (r.Read s 16).next 4).data) = L)
    (h3 : (r.Read (r.Read (r.Read s 16).next 4).next L).err = none)
    (hdata : (r.Read (r.Read (r.Read s 16).next 4).next L).data = payload)
    (hkL : payload.length < L) :
    (yckms.readEncryptedKey r s).1 = Except.ok (payload ++ zeros (L - payload.length))
      ∧ (payload ++ zeros (L - payload.length)).length = L
      ∧ (payload ++ zeros (L - payload.length)).take payload.length = payload
      ∧ (payload ++ zeros (L - payload.length)).drop payload.length
          = List.replicate (L - payload.length) 0
      ∧ ((yckms.readEncryptedKey (recording r) (s, [])).2.2 = [16]
          ∨ (yckms.readEncryptedKey (recording r) (s, [])).2.2 = [16, 4]
          ∨ (yckms.readEncryptedKey (recording r) (s, [])).2.2 = [16, 4, L]) := by
  have hres := yckms.readEncryptedKey_no_error r s h1 hmagic hversion h2 (by rw [hL]; exact h3)
  rw [hL, hdata] at hres
  have hfill : fillBuf L payload = payload ++ zeros (L - payload.length) := by
    unfold fillBuf
    rw [List.take_of_length_le (le_of_lt hkL)]
  rw [hfill] at hres
  have hreq := yckms.readEncryptedKey_requests r s
  rw [hL] at hreq
  refine ⟨hres, ?_, ?_, ?_, hreq⟩
  · simp only [zeros, List.length_append, List.length_replicate]
    omega
  · rw [List.take_left']
    rfl
  · rw [List.drop_left']
    · rfl
    · rfl

theorem C16_short_reads_not_refilled_witness :
    (yckms.readEncryptedKey bytesReader
        (yckms.magic ++ [1] ++ [5, 0, 0, 0] ++ [170, 187])).1
      = Except.ok ([170, 187] ++ zeros (5 - 2)) :=
  (C16_short_reads_not_refilled bytesReader
    (yckms.magic ++ [1] ++ [5, 0, 0, 0] ++ [170, 187]) 5 [170, 187]
    (by decide) (by decide) (by decide) (by decide) (by decide) (by decide) (by decide)
    (by decide)).1

/-! ## The crypter: key setup and failures of key resolution -/

namespace openpgp

variable {κ τ σ K ω ρ : Type}

theorem setupEncryptedKey_inline_ok (lib : Lib) (c : Crypter κ) (W : List Byte)
    (hk : c.encryptedKey = none) (hf : c.IsUseArmoredKey = true)
    (hd : DecodeString lib c.ArmoredKey = Except.ok W) :
    c.setupEncryptedKey lib
      = { err := none, crypter := { c with encryptedKey := some W },
          accesses := [SourceAccess.decodeString c.ArmoredKey] } := by
  simp [Crypter.setupEncryptedKey, hk, hf, hd]

theorem setupEncryptedKey_inline_error (lib : Lib) (c : Crypter κ) (err : Error)
    (hk : c.encryptedKey = none) (hf : c.IsUseArmoredKey = true)
    (hd : DecodeString lib c.ArmoredKey = Except.error err) :
    c.setupEncryptedKey lib
      = { err := some err, crypter := c,
          accesses := [SourceAccess.decodeString c.ArmoredKey] } := by
  simp [Crypter.setupEncryptedKey, hk, hf, hd]

theorem setupEncryptedKey_path_ok (lib : Lib) (c : Crypter κ) (content decoded : List Byte)
    (hk : c.encryptedKey = none) (hf : c.IsUseArmoredKey = false)
    (hp : c.IsUseArmoredKeyPath = true)
    (hr : lib.ReadFile c.ArmoredKeyPath = Except.ok content)
    (hd : lib.Decode content = Except.ok decoded) :
    c.setupEncryptedKey lib
      = { err := none,
          crypter := { c with encryptedKey := some (fillBuf (DecodedLen content.length) decoded) },
          accesses := [SourceAccess.readFile c.ArmoredKeyPath, SourceAccess.decode content] } := by
  simp [Crypter.setupEncryptedKey, hk, hf, hp, hr, hd]

theorem setupEncryptedKey_path_decode_error (lib : Lib) (c : Crypter κ) (content : List Byte)
    (err : Error) (hk : c.encryptedKey = none) (hf : c.IsUseArmoredKey = false)
    (hp : c.IsUseArmoredKeyPath = true)
    (hr : lib.ReadFile c.ArmoredKeyPath = Except.ok content)
    (hd : lib.Decode content = Except.error err) :
    c.setupEncryptedKey lib
      = { err := some err, crypter := c,
          accesses := [SourceAccess.readFile c.ArmoredKeyPath, SourceAccess.decode content] } := by
  simp [Crypter.setupEncryptedKey, hk, hf, hp, hr, hd]

theorem setupEncryptedKey_path_read_error (lib : Lib) (c : Crypter κ) (err : Error)
    (hk : c.encryptedKey = none) (hf : c.IsUseArmoredKey = false)
    (hp : c.IsUseArmoredKeyPath = true)
    (hr : lib.ReadFile c.ArmoredKeyPath = Except.error err) :
    c.setupEncryptedKey lib
      = { err := some err, crypter := c,
          accesses := [SourceAccess.readFile c.ArmoredKeyPath] } := by
  simp [Crypter.setupEncryptedKey, hk, hf, hp, hr]

theorem setupEncryptedKey_no_source (lib : Lib) (c : Crypter κ)
    (hk : c.encryptedKey = none) (hf : c.IsUseArmoredKey = false)
    (hp : c.IsUseArmoredKeyPath = false) :
    c.setupEncryptedKey lib = { err := none, crypter := c, accesses := [] } := by
  simp [Crypter.setupEncryptedKey, hk, hf, hp]

/-- What a call of `setupEncryptedKey` can do: fail and leave the crypter as
it was, or succeed and leave it either resolved or as it was with no access
made (no source configured). -/
theorem setupEncryptedKey_cases (lib : Lib) (c : Crypter κ) :
    ((c.setupEncryptedKey lib).err ≠ none ∧ (c.setupEncryptedKey lib).crypter = c
        ∧ c.encryptedKey = none)
      ∨ ((c.setupEncryptedKey lib).err = none
          ∧ ∃ W, (c.setupEncryptedKey lib).crypter.encryptedKey = some W)
      ∨ c.setupEncryptedKey lib = { err := none, crypter := c, accesses := [] } := by
  cases hk : c.encryptedKey with
  | some W =>
    rw [setupEncryptedKey_resolved lib c W hk]
    exact Or.inr (Or.inr rfl)
  | none =>
    cases hf : c.IsUseArmoredKey with
    | true =>
      cases hd : DecodeString lib c.ArmoredKey with
      | error err =>
        rw [setupEncryptedKey_inline_error lib c err hk hf hd]
        exact Or.inl ⟨by simp, rfl, rfl⟩
      | ok W =>
        rw [setupEncryptedKey_inline_ok lib c W hk hf hd]
        exact Or.inr (Or.inl ⟨rfl, W, rfl⟩)
    | false =>
      cases hp : c.IsUseArmoredKeyPath with
      | false =>
        rw [setupEncryptedKey_no_source lib c hk hf hp]
        exact Or.inr (Or.inr rfl)
      | true =>
        cases hr : lib.ReadFile c.ArmoredKeyPath with
        | error err =>
          rw [setupEncryptedKey_path_read_error lib c err hk hf hp hr]
          exact Or.inl ⟨by simp, rfl, rfl⟩
        | ok content =>
          cases hd : lib.Decode content with
          | error err =>
            rw [setupEncryptedKey_path_decode_error lib c content err hk hf hp hr hd]
            exact Or.inl ⟨by simp, rfl, rfl⟩
          | ok decoded =>
            rw [setupEncryptedKey_path_ok lib c content decoded hk hf hp hr hd]
            exact Or.inr (Or.inl ⟨rfl, _, rfl⟩)

/-- A call of `setupEncryptedKey` that returns an error leaves the crypter as
it was. -/
theorem setupEncryptedKey_error_keeps (lib : Lib) (c : Crypter κ)
    (h : (c.setupEncryptedKey lib).err ≠ none) : (c.setupEncryptedKey lib).crypter = c := by
  rcases setupEncryptedKey_cases lib c with h1 | h2 | h3
  · exact h1.2.1
  · exact absurd h2.1 h
  · rw [h3]

/-- After a call of `setupEncryptedKey` that returned no error, a second call
returns no error, reads nothing and changes nothing. -/
theorem setupEncryptedKey_again (lib lib2 : Lib) (c : Crypter κ)
    (h : (c.setupEncryptedKey lib).err = none) :
    (c.setupEncryptedKey lib).crypter.setupEncryptedKey lib2
      = { err := none, crypter := (c.setupEncryptedKey lib).crypter, accesses := [] } := by
  rcases setupEncryptedKey_cases lib c with h1 | h2 | h3
  · exact absurd h h1.1
  · obtain ⟨_, W, hW⟩ := h2
    exact setupEncryptedKey_resolved lib2 _ W hW
  · rw [h3]
    cases hk : c.encryptedKey with
    | some W => exact setupEncryptedKey_resolved lib2 c W hk
    | none =>
      cases hf : c.IsUseArmoredKey with
      | true =>
        cases hd : DecodeString lib c.ArmoredKey with
        | error err =>
          rw [setupEncryptedKey_inline_error lib c err hk hf hd] at h
          simp at h
        | ok W =>
          rw [setupEncryptedKey_inline_ok lib c W hk hf hd] at h3
          have := congrArg SetupResult.accesses h3
          simp at this
      | false =>
        cases hp : c.IsUseArmoredKeyPath with
        | false => exact setupEncryptedKey_no_source lib2 c hk hf hp
        | true =>
          cases hr : lib.ReadFile c.ArmoredKeyPath with
          | error err =>
            rw [setupEncryptedKey_path_read_error lib c err hk hf hp hr] at h
            simp at h
          | ok content =>
            cases hd : lib.Decode content with
            | error err =>
              rw [setupEncryptedKey_path_decode_error lib c content err hk hf hp hr hd] at h
              simp at h
            | ok decoded =>
              rw [setupEncryptedKey_path_ok lib c content decoded hk hf hp hr hd] at h3
              have := congrArg SetupResult.accesses h3
              simp at this

end openpgp

section SetupClaims

open openpgp

variable {κ τ σ K ω ρ : Type}

/-- C11 (key setup is idempotent and atomic on error): on a crypter whose
`encryptedKey` is resolved, `setupEncryptedKey` returns success, leaves the
crypter unchanged and makes no access to the configured source; so after a
call that returned success a second call changes nothing and accesses
nothing, and two calls in a row always end in the state one call ends in;
and when base64 decoding of the configured source (inline key, or contents
of the key file) fails, it returns that error and `encryptedKey` stays
unset. -/
theorem C11_key_setup_idempotent_atomic (lib lib2 : Lib) (c : Crypter κ) :
    (∀ W, c.encryptedKey = some W →
        c.setupEncryptedKey lib = { err := none, crypter := c, accesses := [] })
      ∧ ((c.setupEncryptedKey lib).err = none →
          (c.setupEncryptedKey lib).crypter.setupEncryptedKey lib2
            = { err := none, crypter := (c.setupEncryptedKey lib).crypter, accesses := [] })
      ∧ ((c.setupEncryptedKey lib).crypter.setupEncryptedKey lib).crypter
          = (c.setupEncryptedKey lib).crypter
      ∧ (∀ err, c.encryptedKey = none → c.IsUseArmoredKey = true →
          DecodeString lib c.ArmoredKey = Except.error err →
          (c.setupEncryptedKey lib).err = some err
            ∧ (c.setupEncryptedKey lib).crypter.encryptedKey = none
            ∧ (c.setupEncryptedKey lib).crypter = c)
      ∧ (∀ err content, c.encryptedKey = none → c.IsUseArmoredKey = false →
          c.IsUseArmoredKeyPath = true → lib.ReadFile c.ArmoredKeyPath = Except.ok content →
          lib.Decode content = Except.error err →
          (c.setupEncryptedKey lib).err = some err
            ∧ (c.setupEncryptedKey lib).crypter.encryptedKey = none
            ∧ (c.setupEncryptedKey lib).crypter = c) := by
  refine ⟨fun W hW => setupEncryptedKey_resolved lib c W hW,
    fun h => setupEncryptedKey_again lib lib2 c h, ?_, ?_, ?_⟩
  · cases he : (c.setupEncryptedKey lib).err with
    | none => rw [setupEncryptedKey_again lib lib c he]
    | some err =>
      have hkeep := setupEncryptedKey_error_keeps lib c (by rw [he]; simp)
      rw [hkeep, hkeep]
  · intro err hk hf hd
    rw [setupEncryptedKey_inline_error lib c err hk hf hd]
    exact ⟨rfl, hk, rfl⟩
  · intro err content hk hf hp hr hd
    rw [setupEncryptedKey_path_decode_error lib c content err hk hf hp hr hd]
    exact ⟨rfl, hk, rfl⟩

theorem C11_key_setup_idempotent_atomic_witness :
    (standin.crypter [1, 2, 3]).setupEncryptedKey standin.lib
        = { err := none, crypter := standin.crypter [1, 2, 3], accesses := [] }
      ∧ ((CrypterFromKey "AQID" (yckms.Enveloper "key-id" standin.kmsUp)).setupEncryptedKey
          standin.lib).err = some (Error.other "illegal base64 data")
      ∧ ((CrypterFromKey "AQID" (yckms.Enveloper "key-id" standin.kmsUp)).setupEncryptedKey
          standin.lib).crypter.encryptedKey = none :=
  ⟨(C11_key_setup_idempotent_atomic standin.lib standin.lib (standin.crypter [1, 2, 3])).1
      [1, 2, 3] rfl,
   ((C11_key_setup_idempotent_atomic standin.lib standin.lib
      (CrypterFromKey "AQID" (yckms.Enveloper "key-id" standin.kmsUp))).2.2.2.1
      (Error.other "illegal base64 data") rfl rfl rfl).1,
   ((C11_key_setup_idempotent_atomic standin.lib standin.lib
      (CrypterFromKey "AQID" (yckms.Enveloper "key-id" standin.kmsUp))).2.2.2.1
      (Error.other "illegal base64 data") rfl rfl rfl).2.1⟩

/-- C12 (key-resolution failures abort the whole operation), as amended:
`Decrypt` returns the error and no reader when `ReadEncryptedKey` fails,
without calling `DecryptKey`, and when `DecryptKey` fails; `Encrypt` returns
an error and no writer when `setupEncryptedKey` fails, when the header is
longer than the cap, and when `DecryptKey` fails.  The underlying writer has
not been written to when `setupEncryptedKey` or the size check fails, and
when `DecryptKey` fails provided the writer is not itself a `*bufio.Writer`
with a buffer of at least `maxHeaderLenAllowed` bytes; when it is one, the
header has been written to it before `DecryptKey` is called. -/
theorem C12_key_resolution_failures_abort (lib : Lib) (engine : Engine K ω ρ)
    (w : Writer τ) (r : Reader σ) (c : Crypter κ) (k : κ) (writer : τ) (reader : σ) :
    (∀ err,
        (c.enveloper.ReadEncryptedKey (bufio.Reader r maxHeaderLenAllowed)
          (bufio.NewReaderSize reader)).1 = Except.error err →
        (c.Decrypt engine r k reader).reader = Except.error err
          ∧ (c.Decrypt engine r k reader).decryptKeyCalls = []
          ∧ (c.Decrypt engine r k reader).enveloperState = k)
      ∧ (∀ encryptedKey err,
          (c.enveloper.ReadEncryptedKey (bufio.Reader r maxHeaderLenAllowed)
            (bufio.NewReaderSize reader)).1 = Except.ok encryptedKey →
          (c.enveloper.DecryptKey k encryptedKey).1 = Except.error err →
          (c.Decrypt engine r k reader).reader
            = Except.error (Error.wrapf err "can't decrypt encryption key"))
      ∧ (∀ err, (c.setupEncryptedKey lib).err = some err →
          (c.Encrypt lib engine w k writer).writer = Except.error err
            ∧ (c.Encrypt lib engine w k writer).underlying = writer
            ∧ (c.Encrypt lib engine w k writer).decryptKeyCalls = [])
      ∧ ((c.setupEncryptedKey lib).err = none →
          maxHeaderLenAllowed < ((c.setupEncryptedKey lib).crypter.enveloper.SerializeEncryptedKey
            ((c.setupEncryptedKey lib).crypter.encryptedKey.getD [])).length →
          (c.Encrypt lib engine w k writer).writer = Except.error Error.invalidSize
            ∧ (c.Encrypt lib engine w k writer).underlying = writer
            ∧ (c.Encrypt lib engine w k writer).decryptKeyCalls = [])
      ∧ (∀ err, (c.setupEncryptedKey lib).err = none →
          ((c.setupEncryptedKey lib).crypter.enveloper.SerializeEncryptedKey
            ((c.setupEncryptedKey lib).crypter.encryptedKey.getD [])).length
              ≤ maxHeaderLenAllowed →
          ((c.setupEncryptedKey lib).crypter.enveloper.DecryptKey k
            ((c.setupEncryptedKey lib).crypter.encryptedKey.getD [])).1 = Except.error err →
          ((∀ n flush, w.asBufio = some (n, flush) → n < maxHeaderLenAllowed) →
            (c.Encrypt lib engine w k writer).writer
                = Except.error (Error.wrapf err "can't decrypt encryption key")
              ∧ (c.Encrypt lib engine w k writer).underlying = writer)
          ∧ (∀ n flush, w.asBufio = some (n, flush) → maxHeaderLenAllowed ≤ n →
              (w.Write writer ((c.setupEncryptedKey lib).crypter.enveloper.SerializeEncryptedKey
                ((c.setupEncryptedKey lib).crypter.encryptedKey.getD []))).fail = none →
              (c.Encrypt lib engine w k writer).writer
                  = Except.error (Error.wrapf err "can't decrypt encryption key")
                ∧ (c.Encrypt lib engine w k writer).underlying
                  = (w.Write writer
                      ((c.setupEncryptedKey lib).crypter.enveloper.SerializeEncryptedKey
                        ((c.setupEncryptedKey lib).crypter.encryptedKey.getD []))).next)) := by
  refine ⟨?_, ?_, ?_, ?_, ?_⟩
  · intro err h
    refine ⟨?_, ?_, ?_⟩ <;> simp only [Crypter.Decrypt, h]
  · intro encryptedKey err h hd
    simp only [Crypter.Decrypt, h, hd]
  · intro err h
    refine ⟨?_, ?_, ?_⟩ <;> simp only [Crypter.Encrypt, h]
  · intro h hlen
    refine ⟨?_, ?_, ?_⟩ <;> simp only [Crypter.Encrypt, h, if_pos hlen]
  · intro err h hlen hd
    have hnot : ¬ ((c.setupEncryptedKey lib).crypter.enveloper.SerializeEncryptedKey
        ((c.setupEncryptedKey lib).crypter.encryptedKey.getD [])).length
          > maxHeaderLenAllowed := by omega
    have hfit : ((c.setupEncryptedKey lib).crypter.enveloper.SerializeEncryptedKey
        ((c.setupEncryptedKey lib).crypter.encryptedKey.getD [])).length
          ≤ maxHeaderLenAllowed - ([] : List Byte).length := by
      simp only [List.length_nil, Nat.sub_zero]
      exact hlen
    constructor
    · intro hsmall
      have hnew : bufio.NewWriterSize w writer maxHeaderLenAllowed
          = bufio.Buffered.fresh { buf := [], err := none, wr := writer } := by
        unfold bufio.NewWriterSize
        split
        · rename_i n flush heq
          have := hsmall n flush heq
          rw [if_neg (by omega)]
        · rfl
      refine ⟨?_, ?_⟩ <;>
        simp only [Crypter.Encrypt, h, if_neg hnot, hnew, bufio.Buffered.Writer, bufio.Writer,
          if_pos hfit, hd, bufio.Buffered.underlying]
    · intro n flush heq hbig hwrite
      have hnew : bufio.NewWriterSize w writer maxHeaderLenAllowed = bufio.Buffered.same writer := by
        simp only [bufio.NewWriterSize, heq]
        rw [if_pos hbig]
      refine ⟨?_, ?_⟩ <;>
        simp only [Crypter.Encrypt, h, if_neg hnot, hnew, bufio.Buffered.Writer, hwrite, hd,
          bufio.Buffered.underlying]

theorem C12_key_resolution_failures_abort_witness :
    ((standin.crypter [1, 2, 3]).Decrypt standin.engine bytesReader 0
        (List.replicate 16 7)).reader = Except.error Error.invalidFormat
      ∧ ((standin.crypter [1, 2, 3]).Decrypt standin.engine bytesReader 0
        (List.replicate 16 7)).decryptKeyCalls = [] :=
  ⟨((C12_key_resolution_failures_abort standin.lib standin.engine bytesBuffer bytesReader
      (standin.crypter [1, 2, 3]) 0 [] (List.replicate 16 7)).1
      Error.invalidFormat (by decide)).1,
   ((C12_key_resolution_failures_abort standin.lib standin.engine bytesBuffer bytesReader
      (standin.crypter [1, 2, 3]) 0 [] (List.replicate 16 7)).1
      Error.invalidFormat (by decide)).2.1⟩

/-- C12, the claim as stated fails when the writer handed to `Encrypt` is a
`*bufio.Writer` with a buffer of 8192 bytes (here an empty one over an empty
`bytes.Buffer`) and the KMS is down: `DecryptKey` fails and `Encrypt` returns
the error, yet the 23 bytes of the header have been written to that writer,
which is no longer in the state it was handed over in. -/
theorem C12_header_written_before_key_failure :
    ((standin.crypterDown [1, 2, 3]).enveloper.DecryptKey 0 [1, 2, 3]).1
        = Except.error (Error.other "kms unavailable")
      ∧ ((standin.crypterDown [1, 2, 3]).Encrypt standin.lib standin.engine
          (bufio.Writer bytesBuffer 8192) 0 { buf := [], err := none, wr := [] }).writer
        = Except.error
            (Error.wrapf (Error.other "kms unavailable") "can't decrypt encryption key")
      ∧ ((standin.crypterDown [1, 2, 3]).Encrypt standin.lib standin.engine
          (bufio.Writer bytesBuffer 8192) 0 { buf := [], err := none, wr := [] }).underlying.buf
        = yckms.serializeEncryptedKey [1, 2, 3]
      ∧ (yckms.serializeEncryptedKey [1, 2, 3]).length = 23
      ∧ ((standin.crypterDown [1, 2, 3]).Encrypt standin.lib standin.engine
          (bufio.Writer bytesBuffer 8192) 0 { buf := [], err := none, wr := [] }).underlying
        ≠ { buf := [], err := none, wr := [] } := by
  refine ⟨rfl, rfl, rfl, rfl, ?_⟩
  intro h
  have hbuf := congrArg (fun b => b.buf.length) h
  exact absurd hbuf (by decide)

end SetupClaims

/-! ## The caching enveloper: frame and soundness of the cache -/

namespace cached

variable {κ : Type}

/-- The three ways a `DecryptKey` call can go: a fresh hit; a call underneath
that fails; a call underneath that succeeds. -/
theorem DecryptKey_cases (sha1Sum : List Byte → List Byte) (e : Enveloper κ)
    (tCheck tStore : Time) (C : List Byte) :
    (∃ item, e.items (createKey sha1Sum C) = some item ∧ item.isFresh tCheck = true
        ∧ e.DecryptKey sha1Sum tCheck tStore C
          = { key := Except.ok item.Object, enveloper := e, calls := [] })
      ∨ (∃ err, (e.wrapped.DecryptKey e.wrappedState C).1 = Except.error err
        ∧ e.DecryptKey sha1Sum tCheck tStore C
          = { key := match e.items (createKey sha1Sum C) with
                     | some item => Except.ok item.Object
                     | none => Except.error err,
              enveloper := { e with wrappedState := (e.wrapped.DecryptKey e.wrappedState C).2 },
              calls := [C] })
      ∨ (∃ P, (e.wrapped.DecryptKey e.wrappedState C).1 = Except.ok P
        ∧ e.DecryptKey sha1Sum tCheck tStore C
          = { key := Except.ok P,
              enveloper := { e with
                wrappedState := (e.wrapped.DecryptKey e.wrappedState C).2
                items := mapSet e.items (createKey sha1Sum C)
                  { Object := P,
                    ExpiredAt := if e.expiration > 0 then time.Add tStore e.expiration
                      else time.zero } },
              calls := [C] }) := by
  have hsplit : (∃ item, e.items (createKey sha1Sum C) = some item ∧ item.isFresh tCheck = true)
      ∨ (e.items (createKey sha1Sum C) = none
        ∨ ∃ item, e.items (createKey sha1Sum C) = some item ∧ item.isFresh tCheck = false) := by
    cases hi : e.items (createKey sha1Sum C) with
    | none => exact Or.inr (Or.inl rfl)
    | some item =>
      cases hf : item.isFresh tCheck with
      | true => exact Or.inl ⟨item, rfl, hf⟩
      | false => exact Or.inr (Or.inr ⟨item, rfl, hf⟩)
  rcases hsplit with ⟨item, hi, hf⟩ | hmiss
  · exact Or.inl ⟨item, hi, hf, DecryptKey_hit sha1Sum e tCheck tStore C item hi hf⟩
  · cases hr : (e.wrapped.DecryptKey e.wrappedState C).1 with
    | error err =>
      exact Or.inr (Or.inl ⟨err, rfl, DecryptKey_failure sha1Sum e tCheck tStore C err hmiss hr⟩)
    | ok P =>
      exact Or.inr (Or.inr ⟨P, rfl, DecryptKey_refresh sha1Sum e tCheck tStore C P hmiss hr⟩)

theorem DecryptKey_wrapped (sha1Sum : List Byte → List Byte) (e : Enveloper κ)
    (tCheck tStore : Time) (C : List Byte) :
    (e.DecryptKey sha1Sum tCheck tStore C).enveloper.wrapped = e.wrapped
      ∧ (e.DecryptKey sha1Sum tCheck tStore C).enveloper.expiration = e.expiration := by
  rcases DecryptKey_cases sha1Sum e tCheck tStore C with
    ⟨_, _, _, h⟩ | ⟨_, _, h⟩ | ⟨_, _, h⟩ <;> rw [h] <;> exact ⟨rfl, rfl⟩

/-- Every entry holds a plaintext that the underlying `DecryptKey` returned
for an input of the listed ones with the entry's key: kept by one call. -/
theorem DecryptKey_sound (sha1Sum : List Byte → List Byte) (e : Enveloper κ)
    (tCheck tStore : Time) (C : List Byte) (U : List (List Byte))
    (hinv : ∀ k item, e.items k = some item →
      ∃ st X, X ∈ U ∧ (e.wrapped.DecryptKey st X).1 = Except.ok item.Object
        ∧ createKey sha1Sum X = k) :
    ∀ k item, (e.DecryptKey sha1Sum tCheck tStore C).enveloper.items k = some item →
      ∃ st X, X ∈ U ++ [C] ∧ (e.wrapped.DecryptKey st X).1 = Except.ok item.Object
        ∧ createKey sha1Sum X = k := by
  have hold : ∀ k item, e.items k = some item →
      ∃ st X, X ∈ U ++ [C] ∧ (e.wrapped.DecryptKey st X).1 = Except.ok item.Object
        ∧ createKey sha1Sum X = k := by
    intro k item h
    obtain ⟨st, X, hX, hok, hkey⟩ := hinv k item h
    exact ⟨st, X, List.mem_append_left _ hX, hok, hkey⟩
  intro k item
  rcases DecryptKey_cases sha1Sum e tCheck tStore C with
    ⟨_, _, _, h⟩ | ⟨_, _, h⟩ | ⟨P, hok, h⟩
  · rw [h]; exact hold k item
  · rw [h]; exact hold k item
  · rw [h]
    simp only [mapSet]
    by_cases hk : k = createKey sha1Sum C
    · rw [if_pos hk]
      intro hitem
      have hP : item.Object = P := by
        have := Option.some.inj hitem
        rw [← this]
      exact ⟨e.wrappedState, C, List.mem_append_right _ (List.mem_singleton.2 rfl),
        by rw [hP]; exact hok, hk.symm⟩
    · rw [if_neg hk]
      exact hold k item

theorem DecryptKeys_wrapped (sha1Sum : List Byte → List Byte) (calls : List (Call κ))
    (e : Enveloper κ) : (e.DecryptKeys sha1Sum calls).wrapped = e.wrapped := by
  induction calls generalizing e with
  | nil => rfl
  | cons c cs ih =>
    unfold Enveloper.DecryptKeys
    rw [ih, (DecryptKey_wrapped sha1Sum _ c.tCheck c.tStore c.encryptedKey).1]

/-- The same, kept by a sequence of calls. -/
theorem DecryptKeys_sound (sha1Sum : List Byte → List Byte) (calls : List (Call κ))
    (e : Enveloper κ) (U : List (List Byte))
    (hinv : ∀ k item, e.items k = some item →
      ∃ st X, X ∈ U ∧ (e.wrapped.DecryptKey st X).1 = Except.ok item.Object
        ∧ createKey sha1Sum X = k) :
    ∀ k item, (e.DecryptKeys sha1Sum calls).items k = some item →
      ∃ st X, X ∈ U ++ calls.map (fun c => c.encryptedKey)
        ∧ (e.wrapped.DecryptKey st X).1 = Except.ok item.Object
        ∧ createKey sha1Sum X = k := by
  induction calls generalizing e U with
  | nil =>
    intro k item h
    obtain ⟨st, X, hX, hok, hkey⟩ := hinv k item h
    exact ⟨st, X, by simpa using hX, hok, hkey⟩
  | cons c cs ih =>
    intro k item h
    unfold Enveloper.DecryptKeys at h
    have hstep := DecryptKey_sound sha1Sum
      { e with wrappedState := c.drift e.wrappedState } c.tCheck c.tStore c.encryptedKey U hinv
    have hw := (DecryptKey_wrapped sha1Sum
      { e with wrappedState := c.drift e.wrappedState } c.tCheck c.tStore c.encryptedKey).1
    obtain ⟨st, X, hX, hok, hkey⟩ := ih _ (U ++ [c.encryptedKey])
      (by rw [hw]; exact hstep) k item h
    rw [hw] at hok
    exact ⟨st, X, by simpa using hX, hok, hkey⟩

end cached

section CacheInvariantClaims

open cached

variable {κ : Type}

/-- C17 (cache soundness invariant): in every state reached from the empty
cache of `EnveloperWithCache` by a sequence of `DecryptKey` calls, each entry
stored under a key `k` holds a plaintext that the underlying `DecryptKey`
returned successfully for an input `X` of those calls with
`createKey X = k`; hence, when the underlying `DecryptKey` is a
deterministic function `f` and `createKey` is injective on the inputs used,
every successful caching `DecryptKey C` returns the plaintext `f C`. -/
theorem C17_cache_soundness (sha1Sum : List Byte → List Byte) (en : EnveloperI κ) (st0 : κ)
    (expiration : Duration) (calls : List (Call κ)) :
    (∀ k item,
        ((EnveloperWithCache en st0 expiration).DecryptKeys sha1Sum calls).items k = some item →
        ∃ st X, X ∈ calls.map (fun c => c.encryptedKey)
          ∧ (en.DecryptKey st X).1 = Except.ok item.Object ∧ createKey sha1Sum X = k)
      ∧ (∀ (f : List Byte → Except Error (List Byte)) (C P : List Byte) (st : κ)
          (tCheck tStore : Time),
          (∀ s X, (en.DecryptKey s X).1 = f X) →
          (∀ a ∈ C :: calls.map (fun c => c.encryptedKey),
            ∀ b ∈ C :: calls.map (fun c => c.encryptedKey),
              createKey sha1Sum a = createKey sha1Sum b → a = b) →
          (Enveloper.DecryptKey sha1Sum
            { (EnveloperWithCache en st0 expiration).DecryptKeys sha1Sum calls with
              wrappedState := st } tCheck tStore C).key = Except.ok P →
          f C = Except.ok P) := by
  have hw : ((EnveloperWithCache en st0 expiration).DecryptKeys sha1Sum calls).wrapped = en :=
    DecryptKeys_wrapped sha1Sum calls _
  have hinv : ∀ k item,
      ((EnveloperWithCache en st0 expiration).DecryptKeys sha1Sum calls).items k = some item →
      ∃ st X, X ∈ calls.map (fun c => c.encryptedKey)
        ∧ (en.DecryptKey st X).1 = Except.ok item.Object ∧ createKey sha1Sum X = k := by
    intro k item h
    have h0 : ∀ k item, (EnveloperWithCache en st0 expiration).items k = some item →
        ∃ st X, X ∈ ([] : List (List Byte))
          ∧ ((EnveloperWithCache en st0 expiration).wrapped.DecryptKey st X).1
              = Except.ok item.Object
          ∧ createKey sha1Sum X = k := by
      intro k item hk
      simp [EnveloperWithCache] at hk
    obtain ⟨st, X, hX, hok, hkey⟩ := DecryptKeys_sound sha1Sum calls _ [] h0 k item h
    exact ⟨st, X, by simpa using hX, hok, hkey⟩
  refine ⟨hinv, ?_⟩
  intro f C P st tCheck tStore hdet hinj hres
  have hentry : ∀ item,
      ((EnveloperWithCache en st0 expiration).DecryptKeys sha1Sum calls).items
        (createKey sha1Sum C) = some item → f C = Except.ok item.Object := by
    intro item hitem
    obtain ⟨s, X, hX, hok, hkey⟩ := hinv _ item hitem
    have hXC : X = C :=
      hinj X (List.mem_cons_of_mem _ hX) C (List.mem_cons_self _ _) hkey
    rw [← hdet s C, ← hXC]
    exact hok
  rcases DecryptKey_cases sha1Sum
      { (EnveloperWithCache en st0 expiration).DecryptKeys sha1Sum calls with wrappedState := st }
      tCheck tStore C with ⟨item, hi, _, h⟩ | ⟨err, herr, h⟩ | ⟨Q, hok, h⟩
  · rw [h] at hres
    have := hentry item hi
    rw [this]
    exact hres
  · rw [h] at hres
    simp only [hw] at herr
    rw [hdet] at herr
    cases hi : ((EnveloperWithCache en st0 expiration).DecryptKeys sha1Sum calls).items
        (createKey sha1Sum C) with
    | none =>
      simp only [hi] at hres
      exact absurd hres (by simp)
    | some item =>
      have := hentry item hi
      rw [herr] at this
      exact absurd this (by simp)
  · rw [h] at hres
    simp only [hw] at hok
    rw [hdet] at hok
    rw [hok]
    exact hres

theorem C17_cache_soundness_witness :
    ∃ st X, X ∈ [[1, 2]]
      ∧ ((yckms.Enveloper "key-id" standin.kmsUp).DecryptKey st X).1
          = Except.ok (Item.mk [1, 2, 42] 0).Object
      ∧ createKey standin.digest X = "0102" :=
  (C17_cache_soundness standin.digest (yckms.Enveloper "key-id" standin.kmsUp) 0 0
    [{ drift := fun k => k, tCheck := 100, tStore := 101, encryptedKey := [1, 2] }]).1
    "0102" { Object := [1, 2, 42], ExpiredAt := 0 } (by decide)

/-- C18 (cache frame): a `DecryptKey C` call changes no entry other than the
one under `createKey C`; it leaves the whole map unchanged when it returns
from a fresh hit (no call underneath), when the call underneath fails (the
stale fallback and the error return), and when it returns an error; the map
changes only when a call underneath succeeded.  The TTL and the wrapped
enveloper never change. -/
theorem C18_cache_frame (sha1Sum : List Byte → List Byte) (e : Enveloper κ)
    (tCheck tStore : Time) (C : List Byte) :
    (∀ k, k ≠ createKey sha1Sum C →
        (e.DecryptKey sha1Sum tCheck tStore C).enveloper.items k = e.items k)
      ∧ ((e.DecryptKey sha1Sum tCheck tStore C).calls = [] →
          (e.DecryptKey sha1Sum tCheck tStore C).enveloper = e)
      ∧ (∀ err, (e.wrapped.DecryptKey e.wrappedState C).1 = Except.error err →
          (e.DecryptKey sha1Sum tCheck tStore C).enveloper.items = e.items)
      ∧ (∀ err, (e.DecryptKey sha1Sum tCheck tStore C).key = Except.error err →
          (e.DecryptKey sha1Sum tCheck tStore C).enveloper.items = e.items)
      ∧ ((e.DecryptKey sha1Sum tCheck tStore C).enveloper.items ≠ e.items →
          (e.DecryptKey sha1Sum tCheck tStore C).calls = [C]
            ∧ ∃ P, (e.wrapped.DecryptKey e.wrappedState C).1 = Except.ok P
              ∧ (e.DecryptKey sha1Sum tCheck tStore C).key = Except.ok P)
      ∧ (e.DecryptKey sha1Sum tCheck tStore C).enveloper.expiration = e.expiration
      ∧ (e.DecryptKey sha1Sum tCheck tStore C).enveloper.wrapped = e.wrapped := by
  rcases DecryptKey_cases sha1Sum e tCheck tStore C with
    ⟨item, _, _, h⟩ | ⟨err, herr, h⟩ | ⟨P, hok, h⟩
  · rw [h]
    exact ⟨fun _ _ => rfl, fun _ => rfl, fun _ _ => rfl, fun _ _ => rfl,
      fun hne => absurd rfl hne, rfl, rfl⟩
  · rw [h]
    exact ⟨fun _ _ => rfl, fun hc => absurd hc (by simp), fun _ _ => rfl, fun _ _ => rfl,
      fun hne => absurd rfl hne, rfl, rfl⟩
  · rw [h]
    refine ⟨?_, fun hc => absurd hc (by simp), ?_, fun err hk => absurd hk (by simp),
      fun _ => ⟨rfl, P, hok, rfl⟩, rfl, rfl⟩
    · intro k hk
      simp only [mapSet, if_neg hk]
    · intro err herr
      rw [hok] at herr
      exact absurd herr (by simp)

theorem C18_cache_frame_witness :
    ((standin.cacheDown (fun k => if k = "0102" then some { Object := [7], ExpiredAt := 50 }
        else none)).DecryptKey standin.digest 100 101 [1, 2]).enveloper.items
      = (standin.cacheDown (fun k => if k = "0102" then some { Object := [7], ExpiredAt := 50 }
          else none)).items :=
  (C18_cache_frame standin.digest
    (standin.cacheDown (fun k => if k = "0102" then some { Object := [7], ExpiredAt := 50 }
      else none)) 100 101 [1, 2]).2.2.1 (Error.other "kms unavailable") (by decide)

end CacheInvariantClaims

/-! ## The two key sources -/

/-- C15 (both key sources cache the decoded bytes), the code at a padded key
text: the text `AQ==` decodes to the single byte 01; configured inline, the
crypter resolves the key 01; configured as the contents of the key file, it
resolves 01 00 00, the whole 3-byte buffer of `DecodedLen(4)`. -/
theorem C15_key_file_keeps_whole_buffer :
    base64.Decode (stringBytes "AQ==") = Except.ok [1]
      ∧ ((openpgp.CrypterFromKey "AQ==" (yckms.Enveloper "key-id" standin.kmsUp)).setupEncryptedKey
          (openpgp.StdLib standin.files)).crypter.encryptedKey = some [1]
      ∧ ((openpgp.CrypterFromKeyPath "/keys/wrapped.b64"
          (yckms.Enveloper "key-id" standin.kmsUp)).setupEncryptedKey
          (openpgp.StdLib standin.files)).crypter.encryptedKey = some [1, 0, 0] := by
  decide


/-! ## Lemmas: the buffered writer over an in-memory sink -/

namespace bufio

/-- Over an in-memory sink `Flush` succeeds and moves the pending bytes to
the sink. -/
theorem Flush_bytesBuffer (b : WriterState (List Byte)) (hb : b.err = none) :
    Flush bytesBuffer b = (none, { buf := [], err := none, wr := b.wr ++ b.buf }) := by
  unfold Flush
  rw [hb]
  by_cases h0 : b.buf.length = 0
  · have hnil : b.buf = [] := List.length_eq_zero.mp h0
    simp only [h0, if_true]
    cases b with
    | mk buf err wr =>
      simp only at hb hnil
      subst hb hnil
      simp
  · simp only [h0, if_false, bytesBuffer]

/-- Over an in-memory sink a buffered `Write` succeeds, and the sink followed
by the pending bytes grows by exactly the bytes written. -/
theorem Writer_Write_bytesBuffer (size : Nat) (b : WriterState (List Byte)) (p : List Byte)
    (hb : b.err = none) :
    ((Writer bytesBuffer size).Write b p).fail = none
      ∧ ((Writer bytesBuffer size).Write b p).next.err = none
      ∧ ((Writer bytesBuffer size).Write b p).next.wr
          ++ ((Writer bytesBuffer size).Write b p).next.buf = b.wr ++ b.buf ++ p := by
  obtain ⟨buf, err, wr⟩ := b
  simp only at hb
  subst hb
  by_cases hfit : p.length ≤ size - buf.length
  · simp only [Writer, if_pos hfit, List.append_assoc, and_self]
  · cases buf with
    | nil =>
      have hfit2 : ¬ p.length ≤ size := by simpa using hfit
      simp [Writer, hfit2, bytesBuffer]
    | cons x xs =>
      have h0 : ¬ (x :: xs).length = 0 := by simp
      have hfl := Flush_bytesBuffer
        { buf := (x :: xs) ++ p.take (size - (x :: xs).length), err := none, wr := wr } rfl
      by_cases hrest : (p.drop (size - (x :: xs).length)).length ≤ size
      · simp only [Writer, if_neg hfit, if_neg h0, hfl, if_pos hrest, List.append_assoc,
          List.take_append_drop, and_self]
      · simp only [Writer, if_neg hfit, if_neg h0, hfl, if_neg hrest]
        simp [bytesBuffer]

end bufio

/-! ## Lemmas: the writer returned by `Encrypt`, over an in-memory sink -/

namespace openpgp

variable {κ K ω : Type}

/-- Writing chunks and closing, over an in-memory sink: no error, nothing
left pending, and the sink holds what it and the buffer held before,
followed by everything the cipher emitted. -/
theorem WriteAllClose_bytesBuffer (cipher : StreamCipher K ω) (ps : List (List Byte))
    (f : OnCloseFlusher ω (List Byte)) (b : bufio.WriterState (List Byte))
    (hfb : f.bufferedWriter = bufio.Buffered.fresh b) (hf : b.err = none) :
    OnCloseFlusher.WriteAllClose cipher bytesBuffer f ps
      = (none,
          bufio.Buffered.fresh
            { buf := [], err := none,
              wr := b.wr ++ b.buf ++ cipher.emit f.encryptedWriter ps }) := by
  induction ps generalizing f b with
  | nil =>
    unfold OnCloseFlusher.WriteAllClose OnCloseFlusher.Close
    have h1 := bufio.Flush_bytesBuffer b hf
    have h2 := bufio.Writer_Write_bytesBuffer maxHeaderLenAllowed
      { buf := [], err := none, wr := b.wr ++ b.buf }
      (cipher.close f.encryptedWriter) rfl
    obtain ⟨h2a, h2b, h2c⟩ := h2
    simp only [hfb, bufio.Buffered.Flush, h1, StreamCipher.Close, bufio.Buffered.Writer, h2a,
      Option.map_none']
    rw [bufio.Flush_bytesBuffer _ h2b, h2c]
    simp [StreamCipher.emit]
  | cons p ps ih =>
    unfold OnCloseFlusher.WriteAllClose
    obtain ⟨ha, hb, hc⟩ := bufio.Writer_Write_bytesBuffer maxHeaderLenAllowed b
      (cipher.write f.encryptedWriter p).2 hf
    have hw1 : (OnCloseFlusher.Write cipher bytesBuffer f p).1 = none := by
      simp only [OnCloseFlusher.Write, StreamCipher.Write, hfb, bufio.Buffered.Writer, ha,
        Option.map_none']
    have hw2 : (OnCloseFlusher.Write cipher bytesBuffer f p).2.bufferedWriter
        = bufio.Buffered.fresh ((bufio.Writer bytesBuffer maxHeaderLenAllowed).Write b
            (cipher.write f.encryptedWriter p).2).next := by
      simp only [OnCloseFlusher.Write, StreamCipher.Write, hfb, bufio.Buffered.Writer]
    simp only [hw1]
    rw [ih _ _ hw2 hb, hc]
    simp only [OnCloseFlusher.Write, StreamCipher.Write, StreamCipher.emit, List.append_assoc]

/-- `Encrypt` with a resolved key whose header fits the cap, a key the
enveloper decrypts and the cipher accepts, over an in-memory sink: it
returns a writer, with the header and the start of the message behind it. -/
theorem Encrypt_bytesBuffer (lib : Lib) (cipher : StreamCipher K ω) (c : Crypter κ) (k : κ)
    (sink W key : List Byte) (recipients : K)
    (hW : c.encryptedKey = some W)
    (hfit : (c.enveloper.SerializeEncryptedKey W).length ≤ maxHeaderLenAllowed)
    (hkey : (c.enveloper.DecryptKey k W).1 = Except.ok key)
    (hring : cipher.ReadArmoredKeyRing key = Except.ok recipients) :
    ∃ f b, (c.Encrypt lib cipher.toEngine bytesBuffer k sink).writer = Except.ok f
      ∧ f.encryptedWriter = (cipher.start recipients).1
      ∧ f.bufferedWriter = bufio.Buffered.fresh b
      ∧ b.err = none
      ∧ b.wr ++ b.buf
          = sink ++ c.enveloper.SerializeEncryptedKey W ++ (cipher.start recipients).2 := by
  have hsu := setupEncryptedKey_resolved lib c W hW
  have hnot : ¬ (c.enveloper.SerializeEncryptedKey W).length > maxHeaderLenAllowed := by omega
  have hnew : bufio.NewWriterSize bytesBuffer sink maxHeaderLenAllowed
      = bufio.Buffered.fresh { buf := [], err := none, wr := sink } := rfl
  obtain ⟨h1a, h1b, h1c⟩ := bufio.Writer_Write_bytesBuffer maxHeaderLenAllowed
    { buf := [], err := none, wr := sink } (c.enveloper.SerializeEncryptedKey W) rfl
  obtain ⟨h2a, h2b, h2c⟩ := bufio.Writer_Write_bytesBuffer maxHeaderLenAllowed
    ((bufio.Writer bytesBuffer maxHeaderLenAllowed).Write { buf := [], err := none, wr := sink }
      (c.enveloper.SerializeEncryptedKey W)).next (cipher.start recipients).2 h1b
  refine ⟨{ encryptedWriter := (cipher.start recipients).1,
            bufferedWriter := bufio.Buffered.fresh
              ((bufio.Writer bytesBuffer maxHeaderLenAllowed).Write
                ((bufio.Writer bytesBuffer maxHeaderLenAllowed).Write
                  { buf := [], err := none, wr := sink }
                  (c.enveloper.SerializeEncryptedKey W)).next (cipher.start recipients).2).next },
    _, ?_, rfl, rfl, h2b, ?_⟩
  · simp only [Crypter.Encrypt, hsu, hW, Option.getD_some, if_neg hnot, hnew,
      bufio.Buffered.Writer, h1a, hkey, StreamCipher.toEngine, hring, h2a]
  · rw [h2c, h1c]
    simp only [List.append_nil]

end openpgp

/-! ## Lemmas: the buffered reader over an in-memory stream, read to its end -/

namespace bufio

/-- At the end of the stream, with nothing buffered, `Read` reports `io.EOF`. -/
theorem Reader_Read_end (size n : Nat) (hn : 0 < n) :
    (bufio.Reader bytesReader size).Read { buf := [], err := none, rd := [] } n
      = { data := [], err := some Error.EOF, next := { buf := [], err := none, rd := [] } } := by
  have hn0 : ¬ n = 0 := by omega
  by_cases hge : n ≥ size
  · simp [bufio.Reader, hn0, hge, bytesReader]
  · simp [bufio.Reader, hn0, hge, bytesReader]

/-- While bytes are left, buffered or not, one `Read` hands over some of
them, the first ones, with no error; the rest stays. -/
theorem Reader_Read_some (size n : Nat) (buf rd : List Byte) (hsize : 0 < size) (hn : 0 < n)
    (hne : buf ++ rd ≠ []) :
    ∃ data buf2 rd2,
      (bufio.Reader bytesReader size).Read { buf := buf, err := none, rd := rd } n
        = { data := data, err := none, next := { buf := buf2, err := none, rd := rd2 } }
      ∧ data.take n = data ∧ data ≠ [] ∧ data ++ (buf2 ++ rd2) = buf ++ rd := by
  have hn1 : n = (n - 1) + 1 := by omega
  cases buf with
  | cons x xs =>
    refine ⟨(x :: xs).take n, (x :: xs).drop n, rd, ?_, ?_, ?_, ?_⟩
    · exact Reader_Read_buffered bytesReader size n { buf := x :: xs, err := none, rd := rd }
        (by simp) hn
    · rw [List.take_take, min_self]
    · rw [hn1]; simp
    · rw [← List.append_assoc, List.take_append_drop]
  | nil =>
    have hrd : rd ≠ [] := by simpa using hne
    by_cases hge : n ≥ size
    · refine ⟨rd.take n, [], rd.drop n, ?_, ?_, ?_, ?_⟩
      · have hn0 : ¬ n = 0 := by omega
        simp only [bufio.Reader, if_neg hn0, List.length_nil, if_true, if_pos hge,
          bytesReader_Read_nonempty rd n hrd, List.take_take, min_self]
      · rw [List.take_take, min_self]
      · cases rd with
        | nil => exact absurd rfl hrd
        | cons y ys => rw [hn1]; simp
      · simp
    · have hlt : n < size := by omega
      refine ⟨(rd.take size).take n, (rd.take size).drop n, rd.drop size, ?_, ?_, ?_, ?_⟩
      · exact Reader_Read_fill size n rd hrd hn hlt
      · rw [List.take_take, min_self]
      · cases rd with
        | nil => exact absurd rfl hrd
        | cons y ys =>
          have hs1 : size = (size - 1) + 1 := by omega
          rw [hs1, hn1]
          simp
      · rw [← List.append_assoc, List.take_append_drop, List.nil_append, List.take_append_drop]

end bufio

/-- Reading a buffered reader over an in-memory stream to its end yields the
buffered bytes followed by the rest of the stream, once the fuel exceeds
their number. -/
theorem readAll_bufio_bytesReader (size chunk : Nat) (hsize : 0 < size) (hchunk : 0 < chunk)
    (m : Nat) :
    ∀ (buf rd : List Byte) (fuel : Nat), (buf ++ rd).length ≤ m → m < fuel →
      readAll (bufio.Reader bytesReader size) chunk fuel { buf := buf, err := none, rd := rd }
        = some (Except.ok (buf ++ rd), { buf := [], err := none, rd := [] }) := by
  induction m with
  | zero =>
    intro buf rd fuel hlen hfuel
    have hnil : buf ++ rd = [] := List.length_eq_zero.mp (Nat.le_zero.mp hlen)
    obtain ⟨hb, hr⟩ := List.append_eq_nil.mp hnil
    subst hb hr
    obtain ⟨fuel2, rfl⟩ : ∃ f, fuel = f + 1 := ⟨fuel - 1, by omega⟩
    simp only [readAll, bufio.Reader_Read_end size chunk hchunk, List.take_nil,
      List.append_nil]
  | succ m ih =>
    intro buf rd fuel hlen hfuel
    obtain ⟨fuel2, rfl⟩ : ∃ f, fuel = f + 1 := ⟨fuel - 1, by omega⟩
    by_cases hnil : buf ++ rd = []
    · obtain ⟨hb, hr⟩ := List.append_eq_nil.mp hnil
      subst hb hr
      simp only [readAll, bufio.Reader_Read_end size chunk hchunk, List.take_nil,
        List.append_nil]
    · obtain ⟨data, buf2, rd2, hread, htake, hdata, hsum⟩ :=
        bufio.Reader_Read_some size chunk buf rd hsize hchunk hnil
      have hlen2 : (buf2 ++ rd2).length ≤ m := by
        have h1 := congrArg List.length hsum
        rw [List.length_append] at h1
        have h2 : 0 < data.length := List.length_pos.mpr hdata
        omega
      have hrec := ih buf2 rd2 fuel2 hlen2 (by omega)
      simp only [readAll, hread, hrec, htake, hsum]

namespace yckms

/-- Reading a serialized header that fits the buffer through a
`bufio.Reader` over an in-memory stream: the key comes back, and what the
reader still holds, buffered or not, is exactly what followed the header. -/
theorem readEncryptedKey_bufio_fits (size : Nat) (W rest : List Byte) (hne : W ≠ [])
    (hlen : W.length < 2 ^ 32) (hfit : 20 + W.length ≤ size) :
    (readEncryptedKey (bufio.Reader bytesReader size)
        (bufio.NewReaderSize (serializeEncryptedKey W ++ rest))).1 = Except.ok W
      ∧ (readEncryptedKey (bufio.Reader bytesReader size)
          (bufio.NewReaderSize (serializeEncryptedKey W ++ rest))).2.err = none
      ∧ (readEncryptedKey (bufio.Reader bytesReader size)
            (bufio.NewReaderSize (serializeEncryptedKey W ++ rest))).2.buf
          ++ (readEncryptedKey (bufio.Reader bytesReader size)
            (bufio.NewReaderSize (serializeEncryptedKey W ++ rest))).2.rd = rest := by
  have hmod : W.length % 2 ^ 32 = W.length := Nat.mod_eq_of_lt hlen
  have hser : serializeEncryptedKey W ++ rest
      = (magic ++ [schemeVersion]) ++ (PutUint32 W.length ++ (W ++ rest)) := by
    simp only [serializeEncryptedKey, toUint32, hmod, List.append_assoc]
  have hu : Uint32 (PutUint32 W.length) = W.length := by rw [Uint32_PutUint32, hmod]
  have hpos : 0 < W.length := List.length_pos.mpr hne
  have hread := readEncryptedKey_bufio size (PutUint32 W.length) (W ++ rest)
    (PutUint32_length _) (by omega) (by simp [hne]) (by rw [hu]; exact hpos)
  rw [hu] at hread
  have hmin : min W.length (size - 20) = W.length := by omega
  have htake : ((W ++ rest).take (size - 20)).take W.length = W := by
    rw [List.take_take, hmin, List.take_left']
    rfl
  rw [htake, fillBuf_exact] at hread
  rw [hser, hread]
  refine ⟨rfl, rfl, ?_⟩
  show ((W ++ rest).take (size - 20)).drop W.length ++ (W ++ rest).drop (size - 20) = rest
  have hle : W.length ≤ ((W ++ rest).take (size - 20)).length := by
    rw [List.length_take, List.length_append]
    omega
  have h1 : ((W ++ rest).take (size - 20) ++ (W ++ rest).drop (size - 20)).drop W.length
      = rest := by
    rw [List.take_append_drop, List.drop_left']
    rfl
  rw [List.drop_append_of_le_length hle] at h1
  exact h1

end yckms

namespace yckms

theorem Enveloper_ReadEncryptedKey {κ σ : Type} (keyID : String)
    (kms : κ → String → List Byte → Except Error (List Byte) × κ) (r : Reader σ) (s : σ) :
    (Enveloper keyID kms).ReadEncryptedKey r s = readEncryptedKey r s := rfl

theorem Enveloper_DecryptKey {κ : Type} (keyID : String)
    (kms : κ → String → List Byte → Except Error (List Byte) × κ) (k : κ) (W : List Byte) :
    (Enveloper keyID kms).DecryptKey k W = kms k keyID W := by
  simp only [Enveloper]
  split <;> rename_i heq <;> rw [heq]

theorem Enveloper_SerializeEncryptedKey {κ : Type} (keyID : String)
    (kms : κ → String → List Byte → Except Error (List Byte) × κ) (W : List Byte) :
    (Enveloper keyID kms).SerializeEncryptedKey W = serializeEncryptedKey W := rfl

end yckms

namespace openpgp

variable {κ K ω : Type}

/-- `Decrypt` over the yckms enveloper on an in-memory stream that starts
with a serialized header fitting the cap: the key read is the one
serialized, and the cipher is handed a source holding exactly the bytes
after the header. -/
theorem Decrypt_bytesReader (cipher : StreamCipher K ω) (c : Crypter κ) (kd : κ)
    (keyID : String) (kms : κ → String → List Byte → Except Error (List Byte) × κ)
    (W key rest : List Byte) (secretKey : K)
    (henv : c.enveloper = yckms.Enveloper keyID kms)
    (hne : W ≠ []) (hfit : 20 + W.length ≤ maxHeaderLenAllowed)
    (hkey : (kms kd keyID W).1 = Except.ok key)
    (hring : cipher.ReadArmoredKeyRing key = Except.ok secretKey) :
    (c.Decrypt cipher.toEngine bytesReader kd (yckms.serializeEncryptedKey W ++ rest)).reader
        = Except.ok secretKey
      ∧ (c.Decrypt cipher.toEngine bytesReader kd
          (yckms.serializeEncryptedKey W ++ rest)).decryptKeyCalls = [W]
      ∧ (c.Decrypt cipher.toEngine bytesReader kd
          (yckms.serializeEncryptedKey W ++ rest)).bufferedReader.err = none
      ∧ (c.Decrypt cipher.toEngine bytesReader kd
            (yckms.serializeEncryptedKey W ++ rest)).bufferedReader.buf
          ++ (c.Decrypt cipher.toEngine bytesReader kd
            (yckms.serializeEncryptedKey W ++ rest)).bufferedReader.rd = rest := by
  have hlen : W.length < 2 ^ 32 := by
    have : maxHeaderLenAllowed = 8192 := by decide
    omega
  obtain ⟨h1, h2, h3⟩ := yckms.readEncryptedKey_bufio_fits maxHeaderLenAllowed W rest hne hlen hfit
  have hd : ((yckms.Enveloper keyID kms).DecryptKey kd W).1 = Except.ok key := by
    rw [yckms.Enveloper_DecryptKey]
    exact hkey
  rw [← yckms.Enveloper_ReadEncryptedKey keyID kms, ← henv] at h1 h2 h3
  rw [← henv] at hd
  refine ⟨?_, ?_, ?_, ?_⟩
  · simp only [Crypter.Decrypt, h1, hd, StreamCipher.toEngine, hring]
  · simp only [Crypter.Decrypt, h1, hd, StreamCipher.toEngine, hring]
  · simp only [Crypter.Decrypt, h1, hd, StreamCipher.toEngine, hring]
    exact h2
  · simp only [Crypter.Decrypt, h1, hd, StreamCipher.toEngine, hring]
    exact h3

end openpgp

/-! ## The end-to-end round trip -/

section RoundTripClaims

open openpgp

variable {κ K ω : Type}

/-- C13 (end-to-end round trip): with the yckms enveloper, a resolved
non-empty wrapped key `W` whose header fits the cap, a key the KMS decrypts
on both sides and the cipher accepts, and a cipher that recovers the
plaintext chunks `ps` from its own ciphertext for them: `Encrypt` over an
empty in-memory sink returns a writer; writing `ps` through it and closing
it leaves on the wire the serialized header followed by the cipher's
ciphertext; `Decrypt` on these bytes reads the header, hands the cipher a
source holding exactly the bytes after the header, and reading everything
from the reader it returns yields the plaintext. -/
theorem C13_end_to_end_round_trip (lib : Lib) (cipher : StreamCipher K ω)
    (c cd : Crypter κ) (keyID : String)
    (kms : κ → String → List Byte → Except Error (List Byte) × κ) (k kd : κ)
    (W key : List Byte) (keys : K) (ps : List (List Byte)) (chunk fuel : Nat)
    (henv : c.enveloper = yckms.Enveloper keyID kms)
    (henvD : cd.enveloper = yckms.Enveloper keyID kms)
    (hW : c.encryptedKey = some W) (hne : W ≠ [])
    (hfit : (yckms.serializeEncryptedKey W).length ≤ maxHeaderLenAllowed)
    (hkE : (kms k keyID W).1 = Except.ok key)
    (hkD : (kms kd keyID W).1 = Except.ok key)
    (hring : cipher.ReadArmoredKeyRing key = Except.ok keys)
    (hcipher : cipher.decrypt keys (cipher.ciphertext keys ps) = Except.ok ps.flatten)
    (hchunk : 0 < chunk) (hfuel : (cipher.ciphertext keys ps).length < fuel) :
    (∃ f, (c.Encrypt lib cipher.toEngine bytesBuffer k []).writer = Except.ok f)
      ∧ (∀ f, (c.Encrypt lib cipher.toEngine bytesBuffer k []).writer = Except.ok f →
          OnCloseFlusher.WriteAllClose cipher bytesBuffer f ps
            = (none,
                bufio.Buffered.fresh
                  { buf := [], err := none,
                    wr := yckms.serializeEncryptedKey W ++ cipher.ciphertext keys ps }))
      ∧ (cd.Decrypt cipher.toEngine bytesReader kd
          (yckms.serializeEncryptedKey W ++ cipher.ciphertext keys ps)).reader = Except.ok keys
      ∧ (cd.Decrypt cipher.toEngine bytesReader kd
            (yckms.serializeEncryptedKey W ++ cipher.ciphertext keys ps)).bufferedReader.buf
          ++ (cd.Decrypt cipher.toEngine bytesReader kd
            (yckms.serializeEncryptedKey W ++ cipher.ciphertext keys ps)).bufferedReader.rd
          = cipher.ciphertext keys ps
      ∧ cipher.readBody (bufio.Reader bytesReader maxHeaderLenAllowed) chunk fuel keys
          (cd.Decrypt cipher.toEngine bytesReader kd
            (yckms.serializeEncryptedKey W ++ cipher.ciphertext keys ps)).bufferedReader
          = some (Except.ok ps.flatten) := by
  have hfitE : (c.enveloper.SerializeEncryptedKey W).length ≤ maxHeaderLenAllowed := by
    rw [henv, yckms.Enveloper_SerializeEncryptedKey]
    exact hfit
  have hkeyE : (c.enveloper.DecryptKey k W).1 = Except.ok key := by
    rw [henv, yckms.Enveloper_DecryptKey]
    exact hkE
  obtain ⟨f, b, hf, hstate, hfresh, herr, hbytes⟩ :=
    Encrypt_bytesBuffer lib cipher c k [] W key keys hW hfitE hkeyE hring
  have hfitD : 20 + W.length ≤ maxHeaderLenAllowed := by
    rw [yckms.serializeEncryptedKey_length] at hfit
    exact hfit
  obtain ⟨hd1, _, hd3, hd4⟩ := Decrypt_bytesReader cipher cd kd keyID kms W key
    (cipher.ciphertext keys ps) keys henvD hne hfitD hkD hring
  refine ⟨⟨f, hf⟩, ?_, hd1, hd4, ?_⟩
  · intro g hg
    rw [hf] at hg
    have hgf : f = g := by injection hg
    subst hgf
    rw [WriteAllClose_bytesBuffer cipher ps f b hfresh herr, hbytes, hstate, henv,
      yckms.Enveloper_SerializeEncryptedKey]
    simp only [StreamCipher.ciphertext, List.nil_append, List.append_assoc]
  · have hdrain := readAll_bufio_bytesReader maxHeaderLenAllowed chunk (by decide) hchunk
      (cipher.ciphertext keys ps).length
      (cd.Decrypt cipher.toEngine bytesReader kd
        (yckms.serializeEncryptedKey W ++ cipher.ciphertext keys ps)).bufferedReader.buf
      (cd.Decrypt cipher.toEngine bytesReader kd
        (yckms.serializeEncryptedKey W ++ cipher.ciphertext keys ps)).bufferedReader.rd
      fuel (by rw [hd4]) hfuel
    have hst : (cd.Decrypt cipher.toEngine bytesReader kd
        (yckms.serializeEncryptedKey W ++ cipher.ciphertext keys ps)).bufferedReader
        = { buf := (cd.Decrypt cipher.toEngine bytesReader kd
              (yckms.serializeEncryptedKey W ++ cipher.ciphertext keys ps)).bufferedReader.buf,
            err := none,
            rd := (cd.Decrypt cipher.toEngine bytesReader kd
              (yckms.serializeEncryptedKey W ++ cipher.ciphertext keys ps)).bufferedReader.rd } := by
      rw [← hd3]
    rw [hst]
    simp only [StreamCipher.readBody, hdrain, hd4, hcipher]

theorem C13_end_to_end_round_trip_witness :
    standin.shiftCipher.readBody (bufio.Reader bytesReader maxHeaderLenAllowed) 512 10 ()
        ((standin.crypter []).Decrypt standin.shiftCipher.toEngine bytesReader 1
          (yckms.serializeEncryptedKey [1, 2, 3]
            ++ standin.shiftCipher.ciphertext () [[10, 20], [30]])).bufferedReader
      = some (Except.ok [10, 20, 30]) :=
  (C13_end_to_end_round_trip standin.lib standin.shiftCipher (standin.crypter [1, 2, 3])
    (standin.crypter []) "key-id" standin.kmsUp 0 1 [1, 2, 3] [1, 2, 3, 42] ()
    [[10, 20], [30]] 512 10 rfl rfl rfl (by decide) (by decide) (by decide) (by decide)
    (by decide) (by decide) (by decide) (by decide)).2.2.2.2

end RoundTripClaims

end WalG
